import Mathlib

/-!
Verification development for livecc, an incremental build driver for C/C++
with a live-reload runtime.  Each section below gives a shallow embedding of
the functions of one subsystem, translated from the C++ sources, and proves
or refutes the specification claims about them.  Machine integers are
modelled as `Nat`/`Int` (file times as `Nat`, signed chars as `Int`), fixed
buffers as an explicit write-index log, and the thread pool as a small-step
transition relation over pending calls.
-/

set_option maxHeartbeats 1000000

/-! ## Live update tick
Embedded from `src/src/main.cpp` lines 622-633 (`Main::update`) together with
`src/src/source_file.cpp` lines 466-506 (`SourceFile::compile`) and lines
508-536 (`SourceFile::replace_functions`). -/

/-- Return value of `SourceFile::compile` (source_file.cpp:466-506).  The
function carries the comment `Returns true if an error occurred`, and the body
returns `true` exactly when the spawned command's exit status `err` is nonzero
(lines 491-494) and `false` on success (line 505). -/
def sourceCompileReturns (exitCode : Nat) : Bool := exitCode != 0

/-- One `Main::update` tick (main.cpp:622-633): when the cursor's file reports
a source change it is recompiled in live mode, and `replace_functions` (which
dlopens the fresh image with deep-bind + global semantics, pushes the handle
onto the loaded list and rewrites PLT entries) is invoked if and only if
`SourceFile::compile` returned `true`.  The value is `true` when the tick
invokes `replace_functions`. -/
def updateTickReplaces (sourceChanged : Bool) (exitCode : Nat) : Bool :=
  if sourceChanged then sourceCompileReturns exitCode else false

/-- C5: the spec claims the freshly built image is dlopened and PLT entries
rewritten only when the live recompile succeeded.  The code does the opposite:
`SourceFile::compile` returns `true` on error, yet `Main::update` guards
`replace_functions` with that return value, so the patch path runs exactly
when the recompile failed (exit 1) and is skipped when it succeeded (exit 0).
This contradicts `SourceFile::compile`'s own documentation of its return
value, so the code is the slip. -/
theorem c5_update_patches_exactly_on_failure :
    updateTickReplaces true 1 = true ∧ updateTickReplaces true 0 = false := by
  decide

/-! ## GCC module mapper pipe
Embedded from `src/src/module_mapper_pipe.cpp` lines 11-94.  `thread_func`
splits each batch read from the pipe on `" ;\n"` and dispatches every line by
the djb2 hash of its first space-separated token; the embedding below models
the handling of a single line. -/

/-- The djb2 hash from module_mapper_pipe.cpp:11-17: `hash = hash * 33 + c`
starting from 5381, computed in `ulong`, i.e. modulo `2 ^ 64`. -/
def djbHash (s : List Nat) : Nat :=
  s.foldl (fun h c => (h * 33 + c) % (2 ^ 64)) 5381

/-- Byte list of a string literal (ASCII), used for the request and response
texts of the mapper protocol. -/
def strBytes (s : String) : List Nat := s.data.map Char.toNat

/-- Splitting a line on single spaces, with empty segments preserved, as
`std::views::split(' ')` does (module_mapper_pipe.cpp:39). -/
def splitOnSpace : List Nat → List (List Nat)
  | [] => [[]]
  | c :: rest =>
    if c = 32 then [] :: splitOnSpace rest
    else
      match splitOnSpace rest with
      | s :: ss => (c :: s) :: ss
      | [] => [[c]]

/-- Context data the mapper thread reads: this node's module name and artifact
path and the shared output directory (module_mapper_pipe.cpp:49-56). -/
structure MapperCtx where
  moduleName : List Nat
  compiledPath : List Nat
  outputDir : List Nat

/-- Response written for one request line by `thread_func`
(module_mapper_pipe.cpp:39-88): the first space-separated token is hashed with
djb2 and dispatched; `MODULE-IMPORT` logs `not implemented` and answers
`ERROR NOT_IMPLEMENTED` (lines 65-71); a missing argument falls to the
`ERROR INVALID_REQUEST` label. -/
def mapperDispatch (ctx : MapperCtx) (line : List Nat) : List Nat :=
  let args := splitOnSpace line
  let a0 := args.headD []
  let rest := args.tail
  if djbHash a0 = djbHash (strBytes "HELLO") then
    strBytes "HELLO 1 LIVECC"
  else if djbHash a0 = djbHash (strBytes "MODULE-REPO") then
    strBytes "MODULE-REPO \"" ++ ctx.outputDir ++ strBytes "/module_repo\""
  else if djbHash a0 = djbHash (strBytes "MODULE-EXPORT") then
    if rest = [] then strBytes "ERROR INVALID_REQUEST"
    else strBytes "PATHNAME \"" ++ ctx.compiledPath ++ strBytes "\""
  else if djbHash a0 = djbHash (strBytes "MODULE-COMPILED") then
    if rest = [] then strBytes "ERROR INVALID_REQUEST" else strBytes "OK"
  else if djbHash a0 = djbHash (strBytes "MODULE-IMPORT") then
    if rest = [] then strBytes "ERROR INVALID_REQUEST"
    else strBytes "ERROR NOT_IMPLEMENTED"
  else if djbHash a0 = djbHash (strBytes "INCLUDE-TRANSLATE") then
    if rest = [] then strBytes "ERROR INVALID_REQUEST" else strBytes "BOOL TRUE"
  else if djbHash a0 = djbHash (strBytes "INVOKE") then
    strBytes "ERROR NOT_SUPPORTED"
  else
    strBytes "ERROR INVALID_REQUEST"

/-- A sample mapper context for concrete evaluations. -/
def mapperCtx0 : MapperCtx :=
  { moduleName := strBytes "foo"
    compiledPath := strBytes "build/live/foo.pcm"
    outputDir := strBytes "build/live" }

/-- C8 counterexample: a `MODULE-IMPORT foo` request is answered with the
constant `ERROR NOT_IMPLEMENTED`, not with the provider's artifact path (the
`PATHNAME "..."` form the protocol uses for resolved names). -/
theorem c8_module_import_not_implemented :
    mapperDispatch mapperCtx0 (strBytes "MODULE-IMPORT foo")
        = strBytes "ERROR NOT_IMPLEMENTED"
      ∧ mapperDispatch mapperCtx0 (strBytes "MODULE-IMPORT foo")
        ≠ strBytes "PATHNAME \"" ++ mapperCtx0.compiledPath ++ strBytes "\"" := by
  decide

/-- Splitting distributes over a space after a space-free literal token. -/
theorem splitOnSpace_moduleImport (name : List Nat) :
    splitOnSpace (strBytes "MODULE-IMPORT " ++ name)
      = strBytes "MODULE-IMPORT" :: splitOnSpace name := by
  simp [strBytes, splitOnSpace]

/-- The space split always yields at least one segment. -/
theorem splitOnSpace_ne_nil (l : List Nat) : splitOnSpace l ≠ [] := by
  match l with
  | [] => simp [splitOnSpace]
  | c :: rest =>
    simp only [splitOnSpace]
    split
    · simp
    · cases h : splitOnSpace rest <;> simp

/-- C8 amended: every `MODULE-IMPORT <name>` request received on the mapper
pipe is answered with `ERROR NOT_IMPLEMENTED` (after logging an error); the
graph is never consulted.  The argument check at module_mapper_pipe.cpp:66
always passes because splitting the line leaves at least one further segment
after `MODULE-IMPORT`. -/
theorem c8_amended_module_import_answer (ctx : MapperCtx) (name : List Nat) :
    mapperDispatch ctx (strBytes "MODULE-IMPORT " ++ name)
      = strBytes "ERROR NOT_IMPLEMENTED" := by
  have hsplit := splitOnSpace_moduleImport name
  have hne := splitOnSpace_ne_nil name
  simp only [mapperDispatch, hsplit]
  have h1 : djbHash (strBytes "MODULE-IMPORT") ≠ djbHash (strBytes "HELLO") := by decide
  have h2 : djbHash (strBytes "MODULE-IMPORT") ≠ djbHash (strBytes "MODULE-REPO") := by decide
  have h3 : djbHash (strBytes "MODULE-IMPORT") ≠ djbHash (strBytes "MODULE-EXPORT") := by decide
  have h4 : djbHash (strBytes "MODULE-IMPORT") ≠ djbHash (strBytes "MODULE-COMPILED") := by decide
  simp [h1, h2, h3, h4, hne]

/-! ## Include scanner
Embedded from `src/src/source_file.cpp` lines 179-357 (`struct Parser`).  The
goto-based scanner is rendered as a Mealy machine: every labelled block of the
C++ code between two `read_char()` calls becomes one state, and each step
consumes exactly one character.  `read_char` casts `f.get()` to a signed
`char`, so byte `b` arrives as `b` when `b < 128` and as `b - 256` otherwise;
end of file arrives as `-1` (and therefore aliases byte 255, exactly as in the
C++).  The 4096-byte `path` buffer is modelled by the write index log
`writes`: `path_add_char` (lines 344-347) appends the index it stores to, then
increments `path_len` and reports failure once `path_len` reaches 4095. -/

/-- Which directive keyword the scanner is currently matching: the remaining
letters are `include` after `#`, `mport` after an initial `i`, and `odule`
after an initial `m` (source_file.cpp:215-233). -/
inductive PKind | inc | imp | mod
deriving DecidableEq, Repr

/-- Where control returns after an inlined comment: the fall-through targets
of the `case '/': parse_comment();` arms.  `impFin`/`modFin` are the
fall-throughs inside `import_read`/`module_read` that terminate the
accumulated name before resuming at `empty_space`. -/
inductive CCont | es | incSp | impSp | modSp | impFin | modFin
deriving DecidableEq, Repr

/-- Phase of `parse_comment` (source_file.cpp:317-338): the dispatch on the
character after `/`, a line comment, and the two multi-line comment states. -/
inductive CPhase | c0 | line | m1 | m2
deriving DecidableEq, Repr

/-- The scanner states, one per labelled block of `Parser::parse`. -/
inductive ScanState
  | es : ScanState
  | tk : ScanState
  | pre : PKind → Nat → ScanState
  | incSp : ScanState
  | incBr : ScanState
  | incQu : ScanState
  | impSp : ScanState
  | impRd : ScanState
  | modSp : ScanState
  | modRd : ScanState
  | cmt : CPhase → CCont → ScanState
deriving DecidableEq, Repr

/-- The scanner result enumeration `Parser::Return` (source_file.cpp:180);
`OPEN_FAILED` is decided before scanning starts and is not part of the byte
machine. -/
inductive ScanRes | ok | unexpectedEnd | pathTooLong
deriving DecidableEq, Repr

/-- Scanner accumulator: `plen` is `path_len`, `buf` the characters stored in
the path buffer since the last reset, `writes` the log of buffer indices
written (including the terminating NUL writes), and the remaining fields the
sets the parser inserts into. -/
structure ScanAcc where
  plen : Nat
  buf : List Int
  writes : List Nat
  sysIncludes : List (List Int)
  localIncludes : List (List Int)
  importNames : List (List Int)
  moduleName : Option (List Int)
deriving DecidableEq, Repr

/-- The initial accumulator. -/
def scanAcc0 : ScanAcc :=
  { plen := 0, buf := [], writes := [], sysIncludes := [], localIncludes := []
    importNames := [], moduleName := none }

/-- Letters still expected for each directive keyword. -/
def pKindChars : PKind → List Int
  | .inc => [105, 110, 99, 108, 117, 100, 101]
  | .imp => [109, 112, 111, 114, 116]
  | .mod => [111, 100, 117, 108, 101]

/-- The read-start state a completed keyword transfers to. -/
def pKindSpaces : PKind → ScanState
  | .inc => .incSp
  | .imp => .impSp
  | .mod => .modSp

/-- `path_add_char` (source_file.cpp:344-347): store at index `path_len`,
increment, and keep going while the new length differs from 4095. -/
def addChar (acc : ScanAcc) (c : Int) : ScanAcc × Bool :=
  ({ acc with plen := acc.plen + 1, buf := acc.buf ++ [c]
              writes := acc.writes ++ [acc.plen] },
   acc.plen + 1 ≠ 4095)

/-- Terminating NUL write `path[path_len] = 0` plus insertion into
`system_header_dependencies` (source_file.cpp:244-247). -/
def emitSys (acc : ScanAcc) : ScanAcc :=
  { acc with writes := acc.writes ++ [acc.plen]
             sysIncludes := acc.sysIncludes ++ [acc.buf] }

/-- NUL write plus `register_include` into `header_dependencies`
(source_file.cpp:255-259, 353-356). -/
def emitLocal (acc : ScanAcc) : ScanAcc :=
  { acc with writes := acc.writes ++ [acc.plen]
             localIncludes := acc.localIncludes ++ [acc.buf] }

/-- NUL write plus insertion into `module_dependencies`
(source_file.cpp:279-281). -/
def emitImport (acc : ScanAcc) : ScanAcc :=
  { acc with writes := acc.writes ++ [acc.plen]
             importNames := acc.importNames ++ [acc.buf] }

/-- NUL write plus the `file.module_name = path` assignment
(source_file.cpp:303-306). -/
def setModule (acc : ScanAcc) : ScanAcc :=
  { acc with writes := acc.writes ++ [acc.plen]
             moduleName := some acc.buf }

/-- Resume after a comment: the caller's fall-through code.  For
`import_read`/`module_read` the fall-through first terminates the name, then
reads on into `empty_space`. -/
def applyCont (k : CCont) (acc : ScanAcc) : ScanState × ScanAcc :=
  match k with
  | .es => (.es, acc)
  | .incSp => (.incSp, acc)
  | .impSp => (.impSp, acc)
  | .modSp => (.modSp, acc)
  | .impFin => (.es, emitImport acc)
  | .modFin => (.es, setModule acc)

/-- The `token` state's dispatch (source_file.cpp:208-213), also reached when
a keyword match fails mid-way: `/` starts a comment, `;`, space, CR and LF
return to `empty_space`, EOF, `{` and `(` end the scan, everything else stays
in `token`. -/
def tokenClassify (c : Int) (acc : ScanAcc) :
    (ScanState × ScanAcc) ⊕ (ScanRes × ScanAcc) :=
  if c = 47 then .inl (.cmt .c0 .es, acc)
  else if c = 59 ∨ c = 32 ∨ c = 13 ∨ c = 10 then .inl (.es, acc)
  else if c = -1 ∨ c = 123 ∨ c = 40 then .inr (.ok, acc)
  else .inl (.tk, acc)

/-- One step of the scanner: consume character `c` in state `s`.  `.inl` is a
transition, `.inr` a return from `Parser::parse`. -/
def scanStep (s : ScanState) (c : Int) (acc : ScanAcc) :
    (ScanState × ScanAcc) ⊕ (ScanRes × ScanAcc) :=
  match s with
  | .es =>
    if c = 47 then .inl (.cmt .c0 .es, acc)
    else if c = 59 ∨ c = 32 ∨ c = 13 ∨ c = 10 then .inl (.es, acc)
    else if c = 35 then .inl (.pre .inc 0, acc)
    else if c = 105 then .inl (.pre .imp 0, acc)
    else if c = 109 then .inl (.pre .mod 0, acc)
    else if c = -1 ∨ c = 123 ∨ c = 40 then .inr (.ok, acc)
    else .inl (.tk, acc)
  | .tk => tokenClassify c acc
  | .pre k idx =>
    match (pKindChars k).get? idx with
    | some e =>
      if c = e then
        if idx + 1 = (pKindChars k).length then .inl (pKindSpaces k, acc)
        else .inl (.pre k (idx + 1), acc)
      else tokenClassify c acc
    | none => tokenClassify c acc
  | .incSp =>
    if c = 47 then .inl (.cmt .c0 .incSp, acc)
    else if c = 32 ∨ c = 9 then .inl (.incSp, acc)
    else if c = 60 then .inl (.incBr, { acc with plen := 0, buf := [] })
    else if c = 34 then .inl (.incQu, { acc with plen := 0, buf := [] })
    else if c = -1 then .inr (.unexpectedEnd, acc)
    else tokenClassify c acc
  | .incBr =>
    if c = 62 then .inl (.tk, emitSys acc)
    else if c = -1 then .inr (.unexpectedEnd, acc)
    else
      let p := addChar acc c
      if p.2 then .inl (.incBr, p.1) else .inr (.pathTooLong, p.1)
  | .incQu =>
    if c = 34 then .inl (.tk, emitLocal acc)
    else if c = -1 then .inr (.unexpectedEnd, acc)
    else
      let p := addChar acc c
      if p.2 then .inl (.incQu, p.1) else .inr (.pathTooLong, p.1)
  | .impSp =>
    if c = 47 then .inl (.cmt .c0 .impSp, acc)
    else if c = 32 ∨ c = 9 ∨ c = 10 ∨ c = 13 then .inl (.impSp, acc)
    else if c = -1 then .inr (.unexpectedEnd, acc)
    else .inl (.impRd, { acc with plen := 1, buf := [c], writes := acc.writes ++ [0] })
  | .impRd =>
    if c = 47 then .inl (.cmt .c0 .impFin, acc)
    else if c = 59 ∨ c = 32 ∨ c = 9 ∨ c = 10 ∨ c = 13 then .inl (.es, emitImport acc)
    else if c = -1 then .inr (.unexpectedEnd, acc)
    else
      let p := addChar acc c
      if p.2 then .inl (.impRd, p.1) else .inr (.pathTooLong, p.1)
  | .modSp =>
    if c = 47 then .inl (.cmt .c0 .modSp, acc)
    else if c = 32 ∨ c = 9 ∨ c = 10 ∨ c = 13 then .inl (.modSp, acc)
    else if c = -1 then .inr (.unexpectedEnd, acc)
    else .inl (.modRd, { acc with plen := 1, buf := [c], writes := acc.writes ++ [0] })
  | .modRd =>
    if c = 47 then .inl (.cmt .c0 .modFin, acc)
    else if c = 59 ∨ c = 32 ∨ c = 9 ∨ c = 10 ∨ c = 13 then .inl (.es, setModule acc)
    else if c = -1 then .inr (.unexpectedEnd, acc)
    else
      let p := addChar acc c
      if p.2 then .inl (.modRd, p.1) else .inr (.pathTooLong, p.1)
  | .cmt .c0 k =>
    if c = 47 then .inl (.cmt .line k, acc)
    else if c = 42 then .inl (.cmt .m1 k, acc)
    else .inl (applyCont k acc)
  | .cmt .line k =>
    if c = 10 ∨ c = -1 then .inl (applyCont k acc)
    else .inl (.cmt .line k, acc)
  | .cmt .m1 k =>
    if c = 42 then .inl (.cmt .m2 k, acc)
    else if c = -1 then .inl (applyCont k acc)
    else .inl (.cmt .m1 k, acc)
  | .cmt .m2 k =>
    if c = 47 ∨ c = -1 then .inl (applyCont k acc)
    else if c = 42 then .inl (.cmt .m2 k, acc)
    else .inl (.cmt .m1 k, acc)

/-- Rank used for termination: at end of input only comment states take one
more (non-consuming) transition, into a state that halts. -/
def scanRank : ScanState → Nat
  | .cmt _ _ => 1
  | _ => 0

/-- On EOF, a transition (rather than a return) only happens from a comment
state, and it lands in a state of smaller rank. -/
theorem scanStep_eof_rank {s s' : ScanState} {acc a' : ScanAcc}
    (h : scanStep s (-1) acc = .inl (s', a')) : scanRank s' < scanRank s := by
  cases s with
  | es => simp [scanStep] at h
  | tk => simp [scanStep, tokenClassify] at h
  | pre k idx =>
    rcases hg : (pKindChars k)[idx]? with _ | e
    · simp [scanStep, hg, tokenClassify] at h
    · have he : e ∈ pKindChars k := List.getElem?_mem hg
      have hne : (-1 : Int) ≠ e := by
        cases k <;> simp [pKindChars] at he <;> omega
      simp [scanStep, hg, hne, tokenClassify] at h
  | incSp => simp [scanStep, tokenClassify] at h
  | incBr => simp [scanStep] at h
  | incQu => simp [scanStep] at h
  | impSp => simp [scanStep] at h
  | impRd => simp [scanStep] at h
  | modSp => simp [scanStep] at h
  | modRd => simp [scanStep] at h
  | cmt ph k =>
    have h' : applyCont k acc = (s', a') := by
      cases ph <;> simpa [scanStep] using h
    rw [show s' = (applyCont k acc).1 from by rw [h']]
    cases k <;> simp [applyCont, scanRank]

/-- The signed-char view of a byte, as produced by `(char)f.get()`. -/
def signedByte (b : Nat) : Int :=
  if b % 256 < 128 then (b % 256 : Int) else (b % 256 : Int) - 256

/-- Run the scanner over a byte stream from state `s`: this is
`Parser::parse` (source_file.cpp:192-315), whose every iteration consumes one
character; once the stream is exhausted every read yields EOF. -/
def scanRun (s : ScanState) (acc : ScanAcc) (inp : List Nat) : ScanRes × ScanAcc :=
  match inp with
  | [] =>
    match h : scanStep s (-1) acc with
    | .inr r => r
    | .inl p => scanRun p.1 p.2 []
  | b :: rest =>
    match scanStep s (signedByte b) acc with
    | .inr r => r
    | .inl p => scanRun p.1 p.2 rest
termination_by (inp.length, scanRank s)
decreasing_by
  · exact Prod.Lex.right _ (scanStep_eof_rank (by rw [h]))
  · exact Prod.Lex.left _ _ (by simp)

/-- The scan of a whole file: `parse()` reads the first character and enters
`empty_space`. -/
def scanFile (bytes : List Nat) : ScanRes × ScanAcc :=
  scanRun .es scanAcc0 bytes

/-- All buffer write indices logged so far are inside the 4096-byte buffer. -/
def writesBounded (acc : ScanAcc) : Prop := ∀ w ∈ acc.writes, w < 4096

/-- Appending one in-range index keeps the log bounded. -/
theorem writesBounded_append {l : List Nat} (hw : ∀ x ∈ l, x < 4096) {w : Nat}
    (h : w < 4096) : ∀ x ∈ l ++ [w], x < 4096 := by
  intro x hx
  rcases List.mem_append.mp hx with hx | hx
  · exact hw x hx
  · simp at hx; omega

/-- One scanner step keeps every logged write inside the buffer, and while the
scan continues `path_len` stays at most 4094 (the largest index
`path_add_char` may still write to before reporting overflow). -/
theorem scanStep_acc_good {s : ScanState} {c : Int} {acc : ScanAcc}
    (hw : writesBounded acc) (hp : acc.plen ≤ 4094) :
    match scanStep s c acc with
    | .inl p => writesBounded p.2 ∧ p.2.plen ≤ 4094
    | .inr r => writesBounded r.2 := by
  have hplt : acc.plen < 4096 := by omega
  have happ : writesBounded { acc with writes := acc.writes ++ [acc.plen] } :=
    writesBounded_append hw hplt
  have hcont : ∀ k : CCont,
      writesBounded (applyCont k acc).2 ∧ (applyCont k acc).2.plen ≤ 4094 := by
    intro k
    cases k with
    | es => exact ⟨hw, hp⟩
    | incSp => exact ⟨hw, hp⟩
    | impSp => exact ⟨hw, hp⟩
    | modSp => exact ⟨hw, hp⟩
    | impFin => exact ⟨writesBounded_append hw hplt, hp⟩
    | modFin => exact ⟨writesBounded_append hw hplt, hp⟩
  have htok : match tokenClassify c acc with
      | .inl p => writesBounded p.2 ∧ p.2.plen ≤ 4094
      | .inr r => writesBounded r.2 := by
    simp only [tokenClassify]
    split_ifs <;> first | exact ⟨hw, hp⟩ | exact hw
  cases s with
  | es =>
    simp only [scanStep]
    split_ifs <;> first | exact ⟨hw, hp⟩ | exact hw
  | tk => exact htok
  | pre k idx =>
    simp only [scanStep, List.get?_eq_getElem?]
    rcases hg : (pKindChars k)[idx]? with _ | e <;> simp only [hg]
    · exact htok
    · split_ifs <;> first | exact ⟨hw, hp⟩ | exact htok
  | incSp =>
    simp only [scanStep]
    split_ifs
    · exact ⟨hw, hp⟩
    · exact ⟨hw, hp⟩
    · exact ⟨hw, by simp⟩
    · exact ⟨hw, by simp⟩
    · exact hw
    · exact htok
  | incBr =>
    simp only [scanStep, addChar]
    split_ifs with h1 h2 h3
    · exact ⟨writesBounded_append hw hplt, hp⟩
    · exact hw
    · refine ⟨writesBounded_append hw hplt, ?_⟩
      simp at h3 ⊢
      omega
    · exact writesBounded_append hw hplt
  | incQu =>
    simp only [scanStep, addChar]
    split_ifs with h1 h2 h3
    · exact ⟨writesBounded_append hw hplt, hp⟩
    · exact hw
    · refine ⟨writesBounded_append hw hplt, ?_⟩
      simp at h3 ⊢
      omega
    · exact writesBounded_append hw hplt
  | impSp =>
    simp only [scanStep]
    split_ifs
    · exact ⟨hw, hp⟩
    · exact ⟨hw, hp⟩
    · exact hw
    · exact ⟨writesBounded_append hw (by omega), by simp⟩
  | impRd =>
    simp only [scanStep, addChar]
    split_ifs with h1 h2 h3 h4
    · exact ⟨hw, hp⟩
    · exact ⟨writesBounded_append hw hplt, hp⟩
    · exact hw
    · refine ⟨writesBounded_append hw hplt, ?_⟩
      simp at h4 ⊢
      omega
    · exact writesBounded_append hw hplt
  | modSp =>
    simp only [scanStep]
    split_ifs
    · exact ⟨hw, hp⟩
    · exact ⟨hw, hp⟩
    · exact hw
    · exact ⟨writesBounded_append hw (by omega), by simp⟩
  | modRd =>
    simp only [scanStep, addChar]
    split_ifs with h1 h2 h3 h4
    · exact ⟨hw, hp⟩
    · exact ⟨writesBounded_append hw hplt, hp⟩
    · exact hw
    · refine ⟨writesBounded_append hw hplt, ?_⟩
      simp at h4 ⊢
      omega
    · exact writesBounded_append hw hplt
  | cmt ph k =>
    cases ph <;> simp only [scanStep] <;> split_ifs <;>
      first
        | exact hcont k
        | exact ⟨hw, hp⟩

/-- Unfolding `scanRun` at end of stream when the step is a return. -/
theorem scanRun_nil_inr {s : ScanState} {acc : ScanAcc} {r : ScanRes × ScanAcc}
    (h : scanStep s (-1) acc = .inr r) : scanRun s acc [] = r := by
  rw [scanRun.eq_def]
  cases hh : scanStep s (-1) acc with
  | inl p => rw [h] at hh; cases hh
  | inr r2 => rw [h] at hh; cases hh; rfl

/-- Unfolding `scanRun` at end of stream when the step is a transition. -/
theorem scanRun_nil_inl {s : ScanState} {acc : ScanAcc} {p : ScanState × ScanAcc}
    (h : scanStep s (-1) acc = .inl p) : scanRun s acc [] = scanRun p.1 p.2 [] := by
  rw [scanRun.eq_def]
  cases hh : scanStep s (-1) acc with
  | inl q => rw [h] at hh; cases hh; rfl
  | inr r2 => rw [h] at hh; cases hh

/-- Unfolding `scanRun` on one more byte when the step is a return. -/
theorem scanRun_cons_inr {s : ScanState} {acc : ScanAcc} {r : ScanRes × ScanAcc}
    {b : Nat} {rest : List Nat} (h : scanStep s (signedByte b) acc = .inr r) :
    scanRun s acc (b :: rest) = r := by
  rw [scanRun.eq_def]
  show (match scanStep s (signedByte b) acc with
    | .inr r => r
    | .inl p => scanRun p.1 p.2 rest) = _
  cases hh : scanStep s (signedByte b) acc with
  | inl p => rw [h] at hh; cases hh
  | inr r2 => rw [h] at hh; cases hh; rfl

/-- Unfolding `scanRun` on one more byte when the step is a transition. -/
theorem scanRun_cons_inl {s : ScanState} {acc : ScanAcc} {p : ScanState × ScanAcc}
    {b : Nat} {rest : List Nat} (h : scanStep s (signedByte b) acc = .inl p) :
    scanRun s acc (b :: rest) = scanRun p.1 p.2 rest := by
  rw [scanRun.eq_def]
  show (match scanStep s (signedByte b) acc with
    | .inr r => r
    | .inl p => scanRun p.1 p.2 rest) = _
  cases hh : scanStep s (signedByte b) acc with
  | inl q => rw [h] at hh; cases hh; rfl
  | inr r2 => rw [h] at hh; cases hh

/-- Running the scanner from a good accumulator never logs a write outside
the buffer. -/
theorem scanRun_writes (inp : List Nat) :
    ∀ s acc, writesBounded acc → acc.plen ≤ 4094 →
      writesBounded (scanRun s acc inp).2 := by
  induction inp with
  | nil =>
    intro s acc hw hp
    rcases hstep : scanStep s (-1) acc with p | r
    · have hgood := scanStep_acc_good (s := s) (c := -1) hw hp
      rw [hstep] at hgood
      have hr := scanStep_eof_rank hstep
      rw [scanRun_nil_inl hstep]
      rcases hstep2 : scanStep p.1 (-1) p.2 with q | r2
      · have := scanStep_eof_rank hstep2
        have hb : scanRank s ≤ 1 := by cases s <;> simp [scanRank]
        omega
      · have hgood2 := scanStep_acc_good (s := p.1) (c := -1) hgood.1 hgood.2
        rw [hstep2] at hgood2
        rw [scanRun_nil_inr hstep2]
        exact hgood2
    · have hgood := scanStep_acc_good (s := s) (c := -1) hw hp
      rw [hstep] at hgood
      rw [scanRun_nil_inr hstep]
      exact hgood
  | cons b rest ih =>
    intro s acc hw hp
    rcases hstep : scanStep s (signedByte b) acc with p | r
    · have hgood := scanStep_acc_good (s := s) (c := signedByte b) hw hp
      rw [hstep] at hgood
      rw [scanRun_cons_inl hstep]
      exact ih p.1 p.2 hgood.1 hgood.2
    · have hgood := scanStep_acc_good (s := s) (c := signedByte b) hw hp
      rw [hstep] at hgood
      rw [scanRun_cons_inr hstep]
      exact hgood

/-- A bracket include whose path does not close within the remaining buffer
space makes the scan stop with `PATH_TOO_LONG`. -/
theorem scanRun_bracket_overflow :
    ∀ (k : Nat) (acc : ScanAcc) (rest : List Nat), 4095 ≤ acc.plen + k →
      acc.plen ≤ 4094 →
      (scanRun .incBr acc (List.replicate k 97 ++ rest)).1 = .pathTooLong := by
  intro k
  induction k with
  | zero => intro acc rest h1 h2; omega
  | succ k ih =>
    intro acc rest h1 h2
    rw [List.replicate_succ, List.cons_append]
    have hsb : signedByte 97 = 97 := by decide
    by_cases hp : acc.plen + 1 = 4095
    · have hstep : scanStep .incBr (signedByte 97) acc
          = .inr (.pathTooLong, (addChar acc 97).1) := by
        rw [hsb]; simp [scanStep, addChar, hp]
      rw [scanRun_cons_inr hstep]
    · have hstep : scanStep .incBr (signedByte 97) acc
          = .inl (.incBr, (addChar acc 97).1) := by
        rw [hsb]; simp [scanStep, addChar, hp]
      rw [scanRun_cons_inl hstep]
      exact ih (addChar acc 97).1 rest (by simp [addChar]; omega) (by simp [addChar]; omega)

/-- C6: for every input byte stream the scanner never writes outside its
4096-byte path buffer - every index it stores to (including each terminating
NUL) is below 4096 - and a single bracket include path too long for the
buffer makes the scan return `PATH_TOO_LONG` (here: 4095 path bytes after
`#include <`, which overflows because `path_add_char` stops accepting at
4095).  Reads are by construction at most one byte per step and stop at end
of input, which `read_char` reports as EOF. -/
theorem c6_scanner_buffer_safety :
    (∀ bytes : List Nat, ∀ w ∈ (scanFile bytes).2.writes, w < 4096)
    ∧ (scanFile (strBytes "#include <" ++ List.replicate 4095 97)).1
        = .pathTooLong := by
  constructor
  · intro bytes
    exact scanRun_writes bytes .es scanAcc0
      (by intro w hw; simp [scanAcc0] at hw) (by simp [scanAcc0])
  · have harg : strBytes "#include <" = [35, 105, 110, 99, 108, 117, 100, 101, 32, 60] := by
      decide
    show (scanRun .es scanAcc0 (strBytes "#include <" ++ List.replicate 4095 97)).1
      = .pathTooLong
    rw [harg]
    simp only [List.cons_append, List.nil_append]
    rw [scanRun_cons_inl (p := (.pre .inc 0, scanAcc0)) (by decide)]
    rw [scanRun_cons_inl (p := (.pre .inc 1, scanAcc0)) (by decide)]
    rw [scanRun_cons_inl (p := (.pre .inc 2, scanAcc0)) (by decide)]
    rw [scanRun_cons_inl (p := (.pre .inc 3, scanAcc0)) (by decide)]
    rw [scanRun_cons_inl (p := (.pre .inc 4, scanAcc0)) (by decide)]
    rw [scanRun_cons_inl (p := (.pre .inc 5, scanAcc0)) (by decide)]
    rw [scanRun_cons_inl (p := (.pre .inc 6, scanAcc0)) (by decide)]
    rw [scanRun_cons_inl (p := (.incSp, scanAcc0)) (by decide)]
    rw [scanRun_cons_inl (p := (.incSp, scanAcc0)) (by decide)]
    rw [scanRun_cons_inl (p := (.incBr, scanAcc0)) (by decide)]
    have hov := scanRun_bracket_overflow 4095 scanAcc0 []
      (by simp [scanAcc0]) (by simp [scanAcc0])
    rw [List.append_nil] at hov
    exact hov

/-- C7 counterexample: a space (byte 32) also ends the token state and
returns the scanner to empty-space, although the claim allows only newline
and ';' to do so. -/
theorem c7_token_exits_on_space :
    scanStep .tk 32 scanAcc0 = .inl (.es, scanAcc0)
      ∧ ¬((32 : Int) = 10 ∨ (32 : Int) = 59) := by
  decide

/-- C7 amended: in the token state, newline, carriage return, space and ';'
return the scanner to empty-space; EOF, '(' and '{' end the scan; '/' enters
comment handling; every other byte is consumed and stays in the token state
(source_file.cpp:208-213). -/
theorem c7_amended_token_state (c : Int) (acc : ScanAcc) :
    (scanStep .tk c acc = .inl (.es, acc) ↔ (c = 10 ∨ c = 13 ∨ c = 32 ∨ c = 59))
    ∧ (scanStep .tk c acc = .inr (.ok, acc) ↔ (c = -1 ∨ c = 40 ∨ c = 123))
    ∧ (scanStep .tk c acc = .inl (.cmt .c0 .es, acc) ↔ c = 47)
    ∧ ((c ≠ 10 ∧ c ≠ 13 ∧ c ≠ 32 ∧ c ≠ 59 ∧ c ≠ -1 ∧ c ≠ 40 ∧ c ≠ 123 ∧ c ≠ 47) →
        scanStep .tk c acc = .inl (.tk, acc)) := by
  refine ⟨?_, ?_, ?_, ?_⟩ <;>
    simp only [scanStep, tokenClassify] <;>
    split_ifs <;>
    simp_all <;>
    omega

/-! ## Compile step
Embedded from `src/src/compile.cpp` lines 149-221 (`compile_file`), over the
new-generation `SourceFile` record of `src/src/source_file.hpp` (fields
`source_time`, `compiled_time`, `parents`, `children`,
`type.compile_to_timestamp()`).  File times are `Nat`; the filesystem side of
a call is the artifact file's mtime (`none` when absent).  `T` is the current
time: a file written during the call gets mtime `T`. -/

/-- The `ErrorCode` enumeration of `src/src/base.hpp`. -/
inductive ErrorCode | ok | failed | openFailed | unexpectedEnd | bufferTooSmall
deriving DecidableEq, Repr

/-- A new-generation source record: the fields of `SourceFile`
(source_file.hpp) that the compile step and dirty propagation read and
write.  `parents` are the nodes this one depends on, `children` the
inverse. -/
structure SFRec where
  timestampKind : Bool
  source_time : Option Nat
  compiled_time : Option Nat
  parents : List Nat
  children : List Nat
deriving DecidableEq, Repr

/-- `fs::last_write_time(p, ec)`: the file's mtime, or the clock's minimum
(modelled as 0) when the error code is set because the file is missing. -/
def lastWriteTime (onDisk : Option Nat) : Nat := onDisk.getD 0

/-- The direct-dirtiness test of `check_file_for_compilation`
(dependency_tree.cpp:176-177): `!compiled_time || (source_time &&
*source_time > *compiled_time)`. -/
def directDirty (r : SFRec) : Bool :=
  r.compiled_time.isNone ||
    (match r.source_time, r.compiled_time with
     | some s, some ct => decide (ct < s)
     | _, _ => false)

/-- `compile_file` (compile.cpp:149-217): timestamp-only kinds set
`compiled_time` to `source_time` and just (re)create the artifact file (we
take the stream open to succeed).  Otherwise the compiler command runs with
exit status `exitCode`; on non-zero exit the partial artifact is removed and
`compiled_time := source_time` (lines 208-211); on success the artifact has
been produced (mtime `T`) and `compiled_time` is set to a fresh
`fs::last_write_time(file.source_path)` read, where `srcOnDisk` is the
source file's current on-disk mtime (line 214).  The result is the updated
record, the artifact file's mtime, and the returned `ErrorCode`. -/
def compile_file (r : SFRec) (srcOnDisk : Option Nat) (exitCode : Nat) (T : Nat) :
    SFRec × Option Nat × ErrorCode :=
  if r.timestampKind then
    ({ r with compiled_time := r.source_time }, some T, .ok)
  else if exitCode ≠ 0 then
    ({ r with compiled_time := r.source_time }, none, .failed)
  else
    ({ r with compiled_time := some (lastWriteTime srcOnDisk) }, some T, .ok)

/-- A concrete non-timestamp record for the compile-step counterexamples. -/
def cRec0 : SFRec :=
  { timestampKind := false, source_time := some 5, compiled_time := none
    parents := [], children := [] }

/-- C4 counterexample: with source mtime 5 and the artifact freshly produced
at time 9, a successful compile stores `some 5` - the source's mtime - into
`compiled_time`, not the artifact's mtime 9. -/
theorem c4_success_stores_source_mtime :
    (compile_file cRec0 (some 5) 0 9).1.compiled_time = some 5
      ∧ (compile_file cRec0 (some 5) 0 9).2.1 = some 9
      ∧ (some 5 : Option Nat) ≠ some 9 := by
  decide

/-- C4 amended: when the spawned command exits with status zero for a
non-timestamp node, the record's `artifact_mtime` is set to the freshly read
modification time of the node's SOURCE file (not of the produced artifact),
and the call reports success. -/
theorem c4_amended_success_mtime (r : SFRec) (src : Option Nat) (T : Nat)
    (hts : r.timestampKind = false) :
    (compile_file r src 0 T).1.compiled_time = some (lastWriteTime src)
      ∧ (compile_file r src 0 T).2.2 = .ok := by
  simp [compile_file, hts]

/-- Witness for the amended C4 at a concrete record. -/
theorem c4_amended_success_mtime_witness :
    cRec0.timestampKind = false
      ∧ ((compile_file cRec0 (some 5) 0 9).1.compiled_time
            = some (lastWriteTime (some 5))
          ∧ (compile_file cRec0 (some 5) 0 9).2.2 = .ok) :=
  ⟨by decide, c4_amended_success_mtime cRec0 (some 5) 9 (by decide)⟩

/-- C10: a failed compile (non-zero exit) of a non-timestamp node removes the
partial artifact, reports `FAILED`, and sets `compiled_time := source_time`;
as a consequence the record is no longer directly dirty, and it becomes
directly dirty again exactly when the source's mtime advances past its old
value `s`.  The branch at compile.cpp:208-211 does not depend on the
`live_compile` flag, so this holds for every failed compile. -/
theorem c10_failed_compile_suppressed (r : SFRec) (src : Option Nat)
    (exitCode T s t : Nat) (hts : r.timestampKind = false)
    (hexit : exitCode ≠ 0) (hs : r.source_time = some s) :
    (compile_file r src exitCode T).2.1 = none
      ∧ (compile_file r src exitCode T).2.2 = .failed
      ∧ (compile_file r src exitCode T).1.compiled_time = r.source_time
      ∧ directDirty (compile_file r src exitCode T).1 = false
      ∧ (directDirty
            { (compile_file r src exitCode T).1 with source_time := some t }
            = true ↔ s < t) := by
  simp [compile_file, hts, hexit, directDirty, hs]

/-- Witness for C10 at a concrete failing compile. -/
theorem c10_failed_compile_suppressed_witness :
    (cRec0.timestampKind = false ∧ (1 : Nat) ≠ 0
        ∧ cRec0.source_time = some 5)
      ∧ ((compile_file cRec0 (some 5) 1 7).2.1 = none
          ∧ (compile_file cRec0 (some 5) 1 7).2.2 = .failed
          ∧ (compile_file cRec0 (some 5) 1 7).1.compiled_time = cRec0.source_time
          ∧ directDirty (compile_file cRec0 (some 5) 1 7).1 = false
          ∧ (directDirty
                { (compile_file cRec0 (some 5) 1 7).1 with source_time := some 6 }
                = true ↔ 5 < 6)) :=
  ⟨⟨by decide, by decide, by decide⟩,
    c10_failed_compile_suppressed cRec0 (some 5) 1 7 5 6 (by decide) (by decide) (by decide)⟩

/-! ## Dirty propagation
Embedded from `src/src/dependency_tree.cpp` lines 163-199:
`DependencyTree::need_compilation` with its helpers
`check_file_for_compilation` and `mark_file_for_compilation`.  The graph is
the list of records; `need_compile` and the `visited` flag (`_temporary`)
are Boolean lists of the same length.  The C++ recursions terminate because
`check` visits only unvisited nodes and `mark` only unmarked ones; the
embedding carries a fuel argument and every entry point passes
`G.length + 1`, which the correctness proofs show is never exhausted (the
fuel-out branches are unreachable). -/

/-- Children list of node `i` (empty when `i` is out of range). -/
def childrenOf (G : List SFRec) (i : Nat) : List Nat :=
  ((G.get? i).map (fun r => r.children)).getD []

/-- Parents list of node `i`. -/
def parentsOf (G : List SFRec) (i : Nat) : List Nat :=
  ((G.get? i).map (fun r => r.parents)).getD []

/-- Direct dirtiness of node `i` in the graph (dependency_tree.cpp:176-177). -/
def dirB (G : List SFRec) (i : Nat) : Bool :=
  ((G.get? i).map directDirty).getD false

/-- The mutable flags of `need_compilation`: `need_compile` and the
per-record `visited` flag. -/
structure DirtySt where
  need : List Bool
  vis : List Bool
deriving DecidableEq, Repr

/-- Read `need_compile` of node `i`. -/
def needAt (st : DirtySt) (i : Nat) : Bool := st.need.getD i false

/-- Read the `visited` flag of node `i`. -/
def visAt (st : DirtySt) (i : Nat) : Bool := st.vis.getD i false

mutual
/-- `mark_file_for_compilation` (dependency_tree.cpp:165-172): set
`need_compile` on the node, recurse into every not-yet-needed child, and
return the updated state with the number of newly marked nodes. -/
def mark_file_for_compilation (G : List SFRec) (fuel i : Nat) (st : DirtySt) :
    DirtySt × Nat :=
  match fuel with
  | 0 => (st, 1)
  | f + 1 =>
    let st1 : DirtySt := { st with need := st.need.set i true }
    let p := markChildren G f (childrenOf G i) st1
    (p.1, 1 + p.2)
termination_by (fuel, 0)
decreasing_by exact Prod.Lex.left _ _ (by omega)

/-- The `for (uint child : files[file].children)` loop of
`mark_file_for_compilation`, guarded by `!files[child].need_compile`. -/
def markChildren (G : List SFRec) (fuel : Nat) (cs : List Nat) (st : DirtySt) :
    DirtySt × Nat :=
  match cs with
  | [] => (st, 0)
  | c :: rest =>
    if needAt st c then markChildren G fuel rest st
    else
      let q := mark_file_for_compilation G fuel c st
      let q2 := markChildren G fuel rest q.1
      (q2.1, q.2 + q2.2)
termination_by (fuel, cs.length + 1)
decreasing_by
  all_goals exact Prod.Lex.right _ (by simp only [List.length_cons]; omega)
end

mutual
/-- `check_file_for_compilation` (dependency_tree.cpp:174-186): set the
visited flag, then either mark the whole subtree when the node is directly
dirty, or recurse into the unneeded, unvisited children.  The inner call to
`mark_file_for_compilation` receives fresh ample fuel, as in the C++ where
the two recursions are independent. -/
def check_file_for_compilation (G : List SFRec) (fuel i : Nat) (st : DirtySt) :
    DirtySt × Nat :=
  match fuel with
  | 0 => (st, 0)
  | f + 1 =>
    let st1 : DirtySt := { st with vis := st.vis.set i true }
    if dirB G i then mark_file_for_compilation G (G.length + 1) i st1
    else checkChildren G f (childrenOf G i) st1
termination_by (fuel, 0)
decreasing_by exact Prod.Lex.left _ _ (by omega)

/-- The `for (uint child : files[file].children)` loop of
`check_file_for_compilation`, guarded by
`!files[child].need_compile && !visited_flag(files[child])`. -/
def checkChildren (G : List SFRec) (fuel : Nat) (cs : List Nat) (st : DirtySt) :
    DirtySt × Nat :=
  match cs with
  | [] => (st, 0)
  | c :: rest =>
    if !needAt st c && !visAt st c then
      let q := check_file_for_compilation G fuel c st
      let q2 := checkChildren G fuel rest q.1
      (q2.1, q.2 + q2.2)
    else checkChildren G fuel rest st
termination_by (fuel, cs.length + 1)
decreasing_by
  all_goals exact Prod.Lex.right _ (by simp only [List.length_cons]; omega)
end

/-- `DependencyTree::need_compilation` (dependency_tree.cpp:189-199): clear
`need_compile` and `visited` everywhere, then run
`check_file_for_compilation` from every parentless record, accumulating the
compile count.  The C++ returns `compile_count != 0`; the embedding returns
the final flags together with `compile_count`. -/
def need_compilation (G : List SFRec) : DirtySt × Nat :=
  (List.range G.length).foldl
    (fun p i =>
      if (parentsOf G i).length = 0 then
        let q := check_file_for_compilation G (G.length + 1) i p.1
        (q.1, p.2 + q.2)
      else p)
    ({ need := List.replicate G.length false, vis := List.replicate G.length false }, 0)

/-- Transitive dirtiness as the spec defines it, over the code's
direct-dirtiness test: a record is dirty iff it is directly dirty or some
parent is dirty. -/
inductive TransDirty (G : List SFRec) : Nat → Prop
  | self (i : Nat) (h : dirB G i = true) : TransDirty G i
  | up (i p : Nat) (hp : p ∈ parentsOf G i) (h : TransDirty G p) : TransDirty G i

/-- Reachability downward along child edges (reflexive-transitive). -/
inductive ChildReach (G : List SFRec) (i : Nat) : Nat → Prop
  | refl : ChildReach G i i
  | step {j c : Nat} (h : ChildReach G i j) (hc : c ∈ childrenOf G j) : ChildReach G i c

/-- Well-formedness of the graph as `DependencyTree::build` produces it:
parent and child lists are in range and dual to each other
(dependency_tree.cpp:94-97 pushes both directions together). -/
@[reducible] def WfGraph (G : List SFRec) : Prop :=
  (∀ i, i < G.length → ∀ p ∈ parentsOf G i, p < G.length ∧ i ∈ childrenOf G p)
  ∧ (∀ i, i < G.length → ∀ c ∈ childrenOf G i, c < G.length ∧ i ∈ parentsOf G c)

/-- The flag lists have one entry per record. -/
def StOK (G : List SFRec) (st : DirtySt) : Prop :=
  st.need.length = G.length ∧ st.vis.length = G.length

/-- Reading a Boolean list after `set`. -/
theorem getD_set_bool (l : List Bool) (i j : Nat) (b : Bool) :
    (l.set i b).getD j false
      = if i = j ∧ j < l.length then b else l.getD j false := by
  induction l generalizing i j with
  | nil => simp [List.set]
  | cons x t ih =>
    cases i with
    | zero =>
      cases j with
      | zero => simp
      | succ j => simp [List.getD]
    | succ i =>
      cases j with
      | zero => simp [List.getD]
      | succ j =>
        simp only [List.set, List.getD_cons_succ, List.length_cons, ih]
        by_cases hij : i = j
        · simp [hij]
        · simp [hij]

/-- Setting a false entry to true removes exactly one false from the count. -/
theorem count_false_set_true (l : List Bool) (i : Nat) (hi : i < l.length)
    (hf : l.getD i false = false) :
    (l.set i true).count false + 1 = l.count false := by
  induction l generalizing i with
  | nil => simp at hi
  | cons x t ih =>
    cases i with
    | zero =>
      simp only [List.getD_cons_zero] at hf
      subst hf
      simp [List.count_cons]
    | succ i =>
      simp only [List.getD_cons_succ] at hf
      simp only [List.length_cons, Nat.succ_lt_succ_iff] at hi
      simp only [List.set, List.count_cons]
      have := ih i hi hf
      omega

/-- A false entry forces a positive false count. -/
theorem count_false_pos (l : List Bool) (i : Nat) (hi : i < l.length)
    (hf : l.getD i false = false) : 0 < l.count false := by
  have := count_false_set_true l i hi hf
  omega

/-- Reading `need_compile` after setting it on node `i`. -/
theorem needAt_set (st : DirtySt) (i j : Nat) :
    needAt { st with need := st.need.set i true } j
      = if i = j ∧ j < st.need.length then true else needAt st j :=
  getD_set_bool st.need i j true

/-- Reading the visited flag after setting it on node `i`. -/
theorem visAt_set (st : DirtySt) (i j : Nat) :
    visAt { st with vis := st.vis.set i true } j
      = if i = j ∧ j < st.vis.length then true else visAt st j :=
  getD_set_bool st.vis i j true

/-- Setting a need flag never clears another. -/
theorem needAt_set_mono {st : DirtySt} {j : Nat} (i : Nat)
    (h : needAt st j = true) :
    needAt { st with need := st.need.set i true } j = true := by
  rw [needAt_set]
  split <;> simp [h]

/-- Child reachability is transitive. -/
theorem childReach_trans {G : List SFRec} {a b c : Nat}
    (h1 : ChildReach G a b) (h2 : ChildReach G b c) : ChildReach G a c := by
  induction h2 with
  | refl => exact h1
  | step h hc ih => exact .step ih hc

/-- Along child edges from a valid node, every reached node is valid, and
any node other than the origin has a parent. -/
theorem childReach_valid {G : List SFRec} (hwf : WfGraph G) {i j : Nat}
    (hi : i < G.length) (h : ChildReach G i j) :
    j < G.length ∧ (j = i ∨ parentsOf G j ≠ []) := by
  induction h with
  | refl => exact ⟨hi, .inl rfl⟩
  | step h hc ih =>
    rcases (hwf.2 _ ih.1 _ hc) with ⟨hlt, hpar⟩
    exact ⟨hlt, .inr (by intro hemp; rw [hemp] at hpar; exact (List.not_mem_nil _) hpar)⟩

/-- Transitive dirtiness propagates down child edges. -/
theorem transDirty_childReach {G : List SFRec} (hwf : WfGraph G) {i j : Nat}
    (hi : i < G.length) (htd : TransDirty G i) (h : ChildReach G i j) :
    TransDirty G j := by
  induction h with
  | refl => exact htd
  | step h hc ih =>
    have hj := (childReach_valid hwf hi h).1
    rcases hwf.2 _ hj _ hc with ⟨_, hpar⟩
    exact .up _ _ hpar ih

/-- Postcondition of `mark_file_for_compilation` from state `st` at node
`i`: the state only grows, everything newly marked is reachable from `i`
along child edges, `i` itself is marked, every newly marked node has all its
children marked, and the visited flags are untouched. -/
def MarkOut (G : List SFRec) (i : Nat) (st st' : DirtySt) : Prop :=
  StOK G st' ∧ st'.vis = st.vis
  ∧ (∀ j, needAt st j = true → needAt st' j = true)
  ∧ (∀ j, needAt st' j = true → needAt st j = true ∨ ChildReach G i j)
  ∧ needAt st' i = true
  ∧ (∀ j, needAt st' j = true →
      needAt st j = true ∨ ∀ c ∈ childrenOf G j, needAt st' c = true)
  ∧ st'.need.count false ≤ st.need.count false

/-- Postcondition of the `markChildren` loop over the child list `cs`. -/
def MCOut (G : List SFRec) (cs : List Nat) (st st' : DirtySt) : Prop :=
  StOK G st' ∧ st'.vis = st.vis
  ∧ (∀ j, needAt st j = true → needAt st' j = true)
  ∧ (∀ j, needAt st' j = true →
      needAt st j = true ∨ ∃ c ∈ cs, ChildReach G c j)
  ∧ (∀ c ∈ cs, needAt st' c = true)
  ∧ (∀ j, needAt st' j = true →
      needAt st j = true ∨ ∀ c ∈ childrenOf G j, needAt st' c = true)
  ∧ st'.need.count false ≤ st.need.count false

/-- The marking recursion meets its postconditions whenever the fuel is at
least the number of unmarked nodes - which `need_compilation`'s choice of
`G.length + 1` always is. -/
theorem mark_spec (G : List SFRec) (hwf : WfGraph G) :
    ∀ fuel : Nat,
      (∀ i st, StOK G st → i < G.length → needAt st i = false →
        st.need.count false ≤ fuel →
        MarkOut G i st (mark_file_for_compilation G fuel i st).1)
      ∧ (∀ cs st, StOK G st → (∀ c ∈ cs, c < G.length) →
        st.need.count false ≤ fuel →
        MCOut G cs st (markChildren G fuel cs st).1) := by
  intro fuel
  induction fuel with
  | zero =>
    constructor
    · intro i st hok hi hni hcnt
      have := count_false_pos st.need i (by rw [hok.1]; exact hi) hni
      omega
    · intro cs
      induction cs with
      | nil =>
        intro st hok hcs hcnt
        simp only [markChildren]
        exact ⟨hok, rfl, fun j h => h, fun j h => .inl h, by simp,
          fun j h => .inl h, le_refl _⟩
      | cons c rest ihc =>
        intro st hok hcs hcnt
        simp only [markChildren]
        cases hnc : needAt st c with
        | false =>
          have := count_false_pos st.need c
            (by rw [hok.1]; exact hcs c (by simp)) hnc
          omega
        | true =>
          simp only [if_pos rfl]
          have hrest := ihc st hok (fun x hx => hcs x (by simp [hx])) hcnt
          rcases hrest with ⟨h1, h2, h3, h4, h5, h6, h7⟩
          refine ⟨h1, h2, h3, ?_, ?_, h6, h7⟩
          · intro j hj
            rcases h4 j hj with h | ⟨c', hc', hr⟩
            · exact .inl h
            · exact .inr ⟨c', by simp [hc'], hr⟩
          · intro c' hc'
            rcases List.mem_cons.mp hc' with h | h
            · subst h; exact h3 c' hnc
            · exact h5 c' h
  | succ f ih =>
    have hm : ∀ i st, StOK G st → i < G.length → needAt st i = false →
        st.need.count false ≤ f + 1 →
        MarkOut G i st (mark_file_for_compilation G (f + 1) i st).1 := by
      intro i st hok hi hni hcnt
      simp only [mark_file_for_compilation]
      set st1 : DirtySt := { st with need := st.need.set i true } with hst1
      have hok1 : StOK G st1 := by
        constructor
        · simp [hst1, hok.1]
        · exact hok.2
      have hcnt1 : st1.need.count false + 1 = st.need.count false := by
        simp only [hst1]
        exact count_false_set_true st.need i (by rw [hok.1]; exact hi) hni
      have hmono1 : ∀ j, needAt st j = true → needAt st1 j = true :=
        fun j h => needAt_set_mono i h
      have hself1 : needAt st1 i = true := by
        rw [hst1, needAt_set]
        simp [hok.1, hi]
      have hsrc1 : ∀ j, needAt st1 j = true → needAt st j = true ∨ j = i := by
        intro j h
        rw [hst1, needAt_set] at h
        by_cases hc : i = j ∧ j < st.need.length
        · exact .inr hc.1.symm
        · rw [if_neg hc] at h; exact .inl h
      have hcv : ∀ c ∈ childrenOf G i, c < G.length :=
        fun c hc => (hwf.2 i hi c hc).1
      have hmc := (ih.2) (childrenOf G i) st1 hok1 hcv (by omega)
      rcases hmc with ⟨m1, m2, m3, m4, m5, m6, m7⟩
      refine ⟨m1, by rw [m2], ?_, ?_, ?_, ?_, by omega⟩
      · exact fun j h => m3 j (hmono1 j h)
      · intro j hj
        rcases m4 j hj with h | ⟨c, hc, hr⟩
        · rcases hsrc1 j h with h' | h'
          · exact .inl h'
          · subst h'; exact .inr .refl
        · exact .inr (childReach_trans (.step .refl hc) hr)
      · exact m3 i hself1
      · intro j hj
        rcases m6 j hj with h | h
        · rcases hsrc1 j h with h' | h'
          · exact .inl h'
          · subst h'; exact .inr m5
        · exact .inr h
    constructor
    · exact hm
    · intro cs
      induction cs with
      | nil =>
        intro st hok hcs hcnt
        simp only [markChildren]
        exact ⟨hok, rfl, fun j h => h, fun j h => .inl h, by simp,
          fun j h => .inl h, le_refl _⟩
      | cons c rest ihc =>
        intro st hok hcs hcnt
        simp only [markChildren]
        cases hnc : needAt st c with
        | true =>
          simp only [if_pos rfl]
          have hrest := ihc st hok (fun x hx => hcs x (by simp [hx])) hcnt
          rcases hrest with ⟨h1, h2, h3, h4, h5, h6, h7⟩
          refine ⟨h1, h2, h3, ?_, ?_, h6, h7⟩
          · intro j hj
            rcases h4 j hj with h | ⟨c', hc', hr⟩
            · exact .inl h
            · exact .inr ⟨c', by simp [hc'], hr⟩
          · intro c' hc'
            rcases List.mem_cons.mp hc' with h | h
            · subst h; exact h3 c' hnc
            · exact h5 c' h
        | false =>
          rw [if_neg (show ¬(false = true) by decide)]
          show MCOut G (c :: rest) st
            (markChildren G (f + 1) rest (mark_file_for_compilation G (f + 1) c st).1).1
          have hq := hm c st hok (hcs c (by simp)) hnc hcnt
          rcases hq with ⟨q1, q2, q3, q4, q5, q6, q7⟩
          have hrest := ihc (mark_file_for_compilation G (f + 1) c st).1 q1
            (fun x hx => hcs x (by simp [hx])) (by omega)
          rcases hrest with ⟨r1, r2, r3, r4, r5, r6, r7⟩
          refine ⟨r1, by rw [r2, q2], ?_, ?_, ?_, ?_, by omega⟩
          · exact fun j h => r3 j (q3 j h)
          · intro j hj
            rcases r4 j hj with h | ⟨c', hc', hr⟩
            · rcases q4 j h with h' | h'
              · exact .inl h'
              · exact .inr ⟨c, by simp, h'⟩
            · exact .inr ⟨c', by simp [hc'], hr⟩
          · intro c' hc'
            rcases List.mem_cons.mp hc' with h | h
            · subst h; exact r3 c' q5
            · exact r5 c' h
          · intro j hj
            rcases r6 j hj with h | h
            · rcases q6 j h with h' | h'
              · exact .inl h'
              · exact .inr (fun c' hc' => r3 c' (h' c' hc'))
            · exact .inr h

/-- Marked nodes have all children marked (downward closure of marks). -/
def Closed (G : List SFRec) (st : DirtySt) : Prop :=
  ∀ j, needAt st j = true → ∀ c ∈ childrenOf G j, needAt st c = true

/-- Every marked node is transitively dirty (soundness of the marks). -/
def NeedTD (G : List SFRec) (st : DirtySt) : Prop :=
  ∀ j, needAt st j = true → TransDirty G j

/-- The visited-node invariant, excepting the set `X` of nodes whose check
call is still running: a visited node outside `X` is marked if directly
dirty, and when unmarked all its children are visited or marked. -/
def VisInvX (G : List SFRec) (X : Nat → Prop) (st : DirtySt) : Prop :=
  ∀ j, ¬ X j → visAt st j = true →
    (dirB G j = true → needAt st j = true)
    ∧ (needAt st j = false →
        ∀ c ∈ childrenOf G j, visAt st c = true ∨ needAt st c = true)

/-- Setting a visited flag never clears another. -/
theorem visAt_set_mono {st : DirtySt} {j : Nat} (i : Nat)
    (h : visAt st j = true) :
    visAt { st with vis := st.vis.set i true } j = true := by
  rw [visAt_set]
  split <;> simp [h]

/-- Postcondition of `check_file_for_compilation` at node `i`. -/
def CheckOut (G : List SFRec) (X : Nat → Prop) (i : Nat) (st st' : DirtySt) : Prop :=
  StOK G st'
  ∧ (∀ j, needAt st j = true → needAt st' j = true)
  ∧ (∀ j, visAt st j = true → visAt st' j = true)
  ∧ visAt st' i = true
  ∧ Closed G st'
  ∧ NeedTD G st'
  ∧ VisInvX G X st'
  ∧ st'.vis.count false ≤ st.vis.count false
  ∧ (∀ j, needAt st' j = true → needAt st j = true ∨ j = i ∨ parentsOf G j ≠ [])
  ∧ (∀ j, visAt st' j = true → visAt st j = true ∨ j = i ∨ parentsOf G j ≠ [])

/-- Postcondition of the `checkChildren` loop over the pending list `cs`. -/
def CCOut (G : List SFRec) (X : Nat → Prop) (cs : List Nat) (st st' : DirtySt) : Prop :=
  StOK G st'
  ∧ (∀ j, needAt st j = true → needAt st' j = true)
  ∧ (∀ j, visAt st j = true → visAt st' j = true)
  ∧ (∀ c ∈ cs, visAt st' c = true ∨ needAt st' c = true)
  ∧ Closed G st'
  ∧ NeedTD G st'
  ∧ VisInvX G X st'
  ∧ st'.vis.count false ≤ st.vis.count false
  ∧ (∀ j, needAt st' j = true → needAt st j = true ∨ parentsOf G j ≠ [])
  ∧ (∀ j, visAt st' j = true → visAt st j = true ∨ parentsOf G j ≠ [])

/-- The checking recursion meets its postconditions whenever the fuel is at
least the number of unvisited nodes, which `need_compilation`'s choice of
`G.length + 1` always is. -/
theorem check_spec (G : List SFRec) (hwf : WfGraph G) :
    ∀ fuel : Nat,
      (∀ i st (X : Nat → Prop), StOK G st → i < G.length →
        needAt st i = false → visAt st i = false →
        st.vis.count false ≤ fuel →
        Closed G st → NeedTD G st →
        (∀ x, X x → visAt st x = true) →
        VisInvX G X st →
        CheckOut G X i st (check_file_for_compilation G fuel i st).1)
      ∧ (∀ cs st (X : Nat → Prop), StOK G st →
        (∀ c ∈ cs, c < G.length ∧ parentsOf G c ≠ []) →
        st.vis.count false ≤ fuel →
        Closed G st → NeedTD G st →
        (∀ x, X x → visAt st x = true) →
        VisInvX G X st →
        CCOut G X cs st (checkChildren G fuel cs st).1) := by
  intro fuel
  induction fuel with
  | zero =>
    constructor
    · intro i st X hok hi hni hvi hcnt
      have := count_false_pos st.vis i (by rw [hok.2]; exact hi) hvi
      omega
    · intro cs
      induction cs with
      | nil =>
        intro st X hok hcs hcnt hcl htd hxv hvx
        simp only [checkChildren]
        exact ⟨hok, fun j h => h, fun j h => h, by simp, hcl, htd, hvx,
          le_refl _, fun j h => .inl h, fun j h => .inl h⟩
      | cons c rest ihc =>
        intro st X hok hcs hcnt hcl htd hxv hvx
        simp only [checkChildren]
        cases hnc : needAt st c with
        | false =>
          cases hvc : visAt st c with
          | false =>
            have := count_false_pos st.vis c
              (by rw [hok.2]; exact (hcs c (by simp)).1) hvc
            omega
          | true =>
            rw [if_neg (by simp)]
            have hrest := ihc st X hok (fun x hx => hcs x (by simp [hx]))
              hcnt hcl htd hxv hvx
            rcases hrest with ⟨h1, h2, h3, h4, h5, h6, h7, h8, h9, h10⟩
            refine ⟨h1, h2, h3, ?_, h5, h6, h7, h8, h9, h10⟩
            intro c' hc'
            rcases List.mem_cons.mp hc' with h | h
            · subst h; exact .inl (h3 c' hvc)
            · exact h4 c' h
        | true =>
          rw [if_neg (by simp)]
          have hrest := ihc st X hok (fun x hx => hcs x (by simp [hx]))
            hcnt hcl htd hxv hvx
          rcases hrest with ⟨h1, h2, h3, h4, h5, h6, h7, h8, h9, h10⟩
          refine ⟨h1, h2, h3, ?_, h5, h6, h7, h8, h9, h10⟩
          intro c' hc'
          rcases List.mem_cons.mp hc' with h | h
          · subst h; exact .inr (h2 c' hnc)
          · exact h4 c' h
  | succ f ih =>
    have hchk : ∀ i st (X : Nat → Prop), StOK G st → i < G.length →
        needAt st i = false → visAt st i = false →
        st.vis.count false ≤ f + 1 →
        Closed G st → NeedTD G st →
        (∀ x, X x → visAt st x = true) →
        VisInvX G X st →
        CheckOut G X i st (check_file_for_compilation G (f + 1) i st).1 := by
      intro i st X hok hi hni hvi hcnt hcl htd hxv hvx
      simp only [check_file_for_compilation]
      set st1 : DirtySt := { st with vis := st.vis.set i true } with hst1
      have hok1 : StOK G st1 := ⟨hok.1, by simp [hst1, hok.2]⟩
      have hneed1 : ∀ j, needAt st1 j = needAt st j := fun j => rfl
      have hvcnt1 : st1.vis.count false + 1 = st.vis.count false := by
        simp only [hst1]
        exact count_false_set_true st.vis i (by rw [hok.2]; exact hi) hvi
      have hvmono1 : ∀ j, visAt st j = true → visAt st1 j = true :=
        fun j h => visAt_set_mono i h
      have hvself1 : visAt st1 i = true := by
        rw [hst1, visAt_set]
        simp [hok.2, hi]
      have hvsrc1 : ∀ j, visAt st1 j = true → visAt st j = true ∨ j = i := by
        intro j h
        rw [hst1, visAt_set] at h
        by_cases hc : i = j ∧ j < st.vis.length
        · exact .inr hc.1.symm
        · rw [if_neg hc] at h; exact .inl h
      cases hdirty : dirB G i with
      | true =>
        rw [if_pos rfl]
        have hmk := (mark_spec G hwf (G.length + 1)).1 i st1 hok1 hi
          (by rw [hneed1]; exact hni)
          (by have := List.count_le_length (l := st1.need) (a := false)
              rw [hok1.1] at this
              omega)
        rcases hmk with ⟨m1, m2, m3, m4, m5, m6, m7⟩
        have hvis' : ∀ j, visAt (mark_file_for_compilation G (G.length + 1) i st1).1 j
            = visAt st1 j := by
          intro j
          simp only [visAt, m2]
        refine ⟨m1, ?_, ?_, ?_, ?_, ?_, ?_, ?_, ?_, ?_⟩
        · intro j h; exact m3 j ((hneed1 j).symm ▸ h)
        · intro j h; rw [hvis']; exact hvmono1 j h
        · rw [hvis']; exact hvself1
        · intro j hj c hc
          rcases m6 j hj with h | h
          · rw [hneed1] at h
            exact m3 c ((hneed1 c).symm ▸ hcl j h c hc)
          · exact h c hc
        · intro j hj
          rcases m4 j hj with h | h
          · exact htd j ((hneed1 j) ▸ h)
          · exact transDirty_childReach hwf hi (.self i hdirty) h
        · intro j hXj hvj
          rw [hvis'] at hvj
          rcases hvsrc1 j hvj with hv | hv
          · have hold := hvx j hXj hv
            constructor
            · intro hd
              exact m3 j ((hneed1 j).symm ▸ hold.1 hd)
            · intro hnj c hc
              have hnj0 : needAt st j = false := by
                cases h0 : needAt st j
                · rfl
                · have := m3 j ((hneed1 j).symm ▸ h0); rw [this] at hnj; cases hnj
              rcases hold.2 hnj0 c hc with h | h
              · exact .inl (by rw [hvis']; exact hvmono1 c h)
              · exact .inr (m3 c ((hneed1 c).symm ▸ h))
          · subst hv
            constructor
            · intro _; exact m5
            · intro hni'; rw [m5] at hni'; cases hni'
        · rw [show (mark_file_for_compilation G (G.length + 1) i st1).1.vis = st1.vis from m2]
          omega
        · intro j hj
          rcases m4 j hj with h | h
          · exact .inl ((hneed1 j) ▸ h)
          · rcases (childReach_valid hwf hi h).2 with h' | h'
            · exact .inr (.inl h')
            · exact .inr (.inr h')
        · intro j hj
          rw [hvis'] at hj
          rcases hvsrc1 j hj with h | h
          · exact .inl h
          · exact .inr (.inl h)
      | false =>
        rw [if_neg (by simp)]
        have hcv : ∀ c ∈ childrenOf G i, c < G.length ∧ parentsOf G c ≠ [] := by
          intro c hc
          rcases hwf.2 i hi c hc with ⟨hlt, hpar⟩
          exact ⟨hlt, by intro hemp; rw [hemp] at hpar; exact (List.not_mem_nil _) hpar⟩
        have hvx1 : VisInvX G (fun j => X j ∨ j = i) st1 := by
          intro j hXj hvj
          have hji : j ≠ i := fun h => hXj (.inr h)
          have hXj0 : ¬ X j := fun h => hXj (.inl h)
          rcases hvsrc1 j hvj with hv | hv
          · have hold := hvx j hXj0 hv
            refine ⟨hold.1, ?_⟩
            intro hnj c hc
            rcases hold.2 hnj c hc with h | h
            · exact .inl (hvmono1 c h)
            · exact .inr h
          · exact absurd hv hji
        have hxv1 : ∀ x, X x ∨ x = i → visAt st1 x = true := by
          intro x hx
          rcases hx with hx | hx
          · exact hvmono1 x (hxv x hx)
          · subst hx; exact hvself1
        have hcc := (ih.2) (childrenOf G i) st1 (fun j => X j ∨ j = i) hok1 hcv
          (by omega) hcl htd hxv1 hvx1
        rcases hcc with ⟨d1, d2, d3, d4, d5, d6, d7, d8, d9, d10⟩
        refine ⟨d1, d2, ?_, ?_, d5, d6, ?_, by omega, ?_, ?_⟩
        · exact fun j h => d3 j (hvmono1 j h)
        · exact d3 i hvself1
        · intro j hXj hvj
          by_cases hji : j = i
          · subst hji
            constructor
            · intro hd
              rw [hdirty] at hd; cases hd
            · intro _
              exact d4
          · exact d7 j (by simp [hXj, hji]) hvj
        · intro j hj
          rcases d9 j hj with h | h
          · exact .inl h
          · exact .inr (.inr h)
        · intro j hj
          rcases d10 j hj with h | h
          · rcases hvsrc1 j h with h' | h'
            · exact .inl h'
            · exact .inr (.inl h')
          · exact .inr (.inr h)
    constructor
    · exact hchk
    · intro cs
      induction cs with
      | nil =>
        intro st X hok hcs hcnt hcl htd hxv hvx
        simp only [checkChildren]
        exact ⟨hok, fun j h => h, fun j h => h, by simp, hcl, htd, hvx,
          le_refl _, fun j h => .inl h, fun j h => .inl h⟩
      | cons c rest ihc =>
        intro st X hok hcs hcnt hcl htd hxv hvx
        simp only [checkChildren]
        cases hnc : needAt st c with
        | true =>
          rw [if_neg (by simp)]
          have hrest := ihc st X hok (fun x hx => hcs x (by simp [hx]))
            hcnt hcl htd hxv hvx
          rcases hrest with ⟨h1, h2, h3, h4, h5, h6, h7, h8, h9, h10⟩
          refine ⟨h1, h2, h3, ?_, h5, h6, h7, h8, h9, h10⟩
          intro c' hc'
          rcases List.mem_cons.mp hc' with h | h
          · subst h; exact .inr (h2 c' hnc)
          · exact h4 c' h
        | false =>
          cases hvc : visAt st c with
          | true =>
            rw [if_neg (by simp)]
            have hrest := ihc st X hok (fun x hx => hcs x (by simp [hx]))
              hcnt hcl htd hxv hvx
            rcases hrest with ⟨h1, h2, h3, h4, h5, h6, h7, h8, h9, h10⟩
            refine ⟨h1, h2, h3, ?_, h5, h6, h7, h8, h9, h10⟩
            intro c' hc'
            rcases List.mem_cons.mp hc' with h | h
            · subst h; exact .inl (h3 c' hvc)
            · exact h4 c' h
          | false =>
            rw [if_pos (by simp)]
            show CCOut G X (c :: rest) st
              (checkChildren G (f + 1) rest
                (check_file_for_compilation G (f + 1) c st).1).1
            have hq := hchk c st X hok (hcs c (by simp)).1 hnc hvc hcnt
              hcl htd hxv hvx
            rcases hq with ⟨q1, q2, q3, q4, q5, q6, q7, q8, q9, q10⟩
            have hrest := ihc (check_file_for_compilation G (f + 1) c st).1 X q1
              (fun x hx => hcs x (by simp [hx])) (by omega) q5 q6
              (fun x hx => q3 x (hxv x hx)) q7
            rcases hrest with ⟨r1, r2, r3, r4, r5, r6, r7, r8, r9, r10⟩
            refine ⟨r1, fun j h => r2 j (q2 j h), fun j h => r3 j (q3 j h),
              ?_, r5, r6, r7, by omega, ?_, ?_⟩
            · intro c' hc'
              rcases List.mem_cons.mp hc' with h | h
              · subst h; exact .inl (r3 c' q4)
              · exact r4 c' h
            · intro j hj
              rcases r9 j hj with h | h
              · rcases q9 j h with h' | h' | h'
                · exact .inl h'
                · subst h'; exact .inr (hcs j (by simp)).2
                · exact .inr h'
              · exact .inr h
            · intro j hj
              rcases r10 j hj with h | h
              · rcases q10 j h with h' | h' | h'
                · exact .inl h'
                · subst h'; exact .inr (hcs j (by simp)).2
                · exact .inr h'
              · exact .inr h

/-- Reading a replicate-false list always gives false. -/
theorem getD_replicate_false (n j : Nat) :
    (List.replicate n false).getD j false = false := by
  induction n generalizing j with
  | zero => simp [List.getD]
  | succ n ih => cases j <;> simp [List.replicate, List.getD, ih]

/-- The loop body of `need_compilation` (dependency_tree.cpp:195-197). -/
def ncStep (G : List SFRec) (p : DirtySt × Nat) (i : Nat) : DirtySt × Nat :=
  if (parentsOf G i).length = 0 then
    let q := check_file_for_compilation G (G.length + 1) i p.1
    (q.1, p.2 + q.2)
  else p

/-- `need_compilation` is the fold of `ncStep` over all records. -/
theorem need_compilation_eq (G : List SFRec) :
    need_compilation G
      = (List.range G.length).foldl (ncStep G)
        ({ need := List.replicate G.length false
           vis := List.replicate G.length false }, 0) := rfl

/-- Invariants carried through the root loop of `need_compilation`. -/
theorem ncFold_spec (G : List SFRec) (hwf : WfGraph G) :
    ∀ (l : List Nat) (st : DirtySt) (k : Nat),
      (∀ j ∈ l, j < G.length) → l.Nodup →
      StOK G st → Closed G st → NeedTD G st →
      VisInvX G (fun _ => False) st →
      (∀ j ∈ l, parentsOf G j = [] → needAt st j = false ∧ visAt st j = false) →
      (StOK G (l.foldl (ncStep G) (st, k)).1
        ∧ Closed G (l.foldl (ncStep G) (st, k)).1
        ∧ NeedTD G (l.foldl (ncStep G) (st, k)).1
        ∧ VisInvX G (fun _ => False) (l.foldl (ncStep G) (st, k)).1
        ∧ (∀ j, needAt st j = true → needAt (l.foldl (ncStep G) (st, k)).1 j = true)
        ∧ (∀ j, visAt st j = true → visAt (l.foldl (ncStep G) (st, k)).1 j = true)
        ∧ (∀ j ∈ l, parentsOf G j = [] →
            visAt (l.foldl (ncStep G) (st, k)).1 j = true)) := by
  intro l
  induction l with
  | nil =>
    intro st k hl hnd hok hcl htd hvx hclean
    simp only [List.foldl_nil]
    exact ⟨hok, hcl, htd, hvx, fun j h => h, fun j h => h, by simp⟩
  | cons i rest ihl =>
    intro st k hl hnd hok hcl htd hvx hclean
    simp only [List.foldl_cons]
    have hnd' : rest.Nodup := (List.nodup_cons.mp hnd).2
    have hirest : i ∉ rest := (List.nodup_cons.mp hnd).1
    by_cases hroot : (parentsOf G i).length = 0
    · have hpar : parentsOf G i = [] := List.length_eq_zero.mp hroot
      have hunf : ncStep G (st, k) i
          = ((check_file_for_compilation G (G.length + 1) i st).1,
              k + (check_file_for_compilation G (G.length + 1) i st).2) := by
        simp [ncStep, hroot]
      rw [hunf]
      have hclean_i := hclean i (by simp) hpar
      have hchk := (check_spec G hwf (G.length + 1)).1 i st (fun _ => False)
        hok (hl i (by simp)) hclean_i.1 hclean_i.2
        (by have := List.count_le_length (l := st.vis) (a := false)
            rw [hok.2] at this
            omega)
        hcl htd (fun x hx => absurd hx (by simp)) hvx
      rcases hchk with ⟨q1, q2, q3, q4, q5, q6, q7, q8, q9, q10⟩
      have hclean' : ∀ j ∈ rest, parentsOf G j = [] →
          needAt (check_file_for_compilation G (G.length + 1) i st).1 j = false
          ∧ visAt (check_file_for_compilation G (G.length + 1) i st).1 j = false := by
        intro j hj hparj
        have hji : j ≠ i := fun h => hirest (h ▸ hj)
        have hcleanj := hclean j (by simp [hj]) hparj
        constructor
        · cases hn : needAt (check_file_for_compilation G (G.length + 1) i st).1 j
          · rfl
          · rcases q9 j hn with h | h | h
            · rw [hcleanj.1] at h; cases h
            · exact absurd h hji
            · exact absurd hparj h
        · cases hn : visAt (check_file_for_compilation G (G.length + 1) i st).1 j
          · rfl
          · rcases q10 j hn with h | h | h
            · rw [hcleanj.2] at h; cases h
            · exact absurd h hji
            · exact absurd hparj h
      have hrest := ihl (check_file_for_compilation G (G.length + 1) i st).1
        (k + (check_file_for_compilation G (G.length + 1) i st).2)
        (fun j hj => hl j (by simp [hj])) hnd' q1 q5 q6 q7 hclean'
      rcases hrest with ⟨r1, r2, r3, r4, r5, r6, r7⟩
      refine ⟨r1, r2, r3, r4, fun j h => r5 j (q2 j h), fun j h => r6 j (q3 j h), ?_⟩
      intro j hj hparj
      rcases List.mem_cons.mp hj with h | h
      · subst h; exact r6 j q4
      · exact r7 j h hparj
    · have hunf : ncStep G (st, k) i = (st, k) := by
        simp [ncStep, hroot]
      rw [hunf]
      have hrest := ihl st k (fun j hj => hl j (by simp [hj])) hnd' hok hcl htd hvx
        (fun j hj hparj => hclean j (by simp [hj]) hparj)
      rcases hrest with ⟨r1, r2, r3, r4, r5, r6, r7⟩
      refine ⟨r1, r2, r3, r4, r5, r6, ?_⟩
      intro j hj hparj
      rcases List.mem_cons.mp hj with h | h
      · subst h; exact absurd (by rw [hparj]; rfl) hroot
      · exact r7 j h hparj

/-- The state `need_compilation` produces: well-sized flags, downward-closed
sound marks, the full visited-invariant, and every parentless record
visited. -/
theorem need_compilation_spec (G : List SFRec) (hwf : WfGraph G) :
    StOK G (need_compilation G).1
    ∧ Closed G (need_compilation G).1
    ∧ NeedTD G (need_compilation G).1
    ∧ VisInvX G (fun _ => False) (need_compilation G).1
    ∧ (∀ j, j < G.length → parentsOf G j = [] →
        visAt (need_compilation G).1 j = true) := by
  rw [need_compilation_eq]
  have h := ncFold_spec G hwf (List.range G.length)
    { need := List.replicate G.length false, vis := List.replicate G.length false } 0
    (fun j hj => List.mem_range.mp hj) (List.nodup_range G.length)
    ⟨by simp, by simp⟩
    (by intro j hj; simp [needAt, getD_replicate_false] at hj)
    (by intro j hj; simp [needAt, getD_replicate_false] at hj)
    (by intro j _ hj; simp [visAt, getD_replicate_false] at hj)
    (by intro j _ _
        exact ⟨by simp [needAt, getD_replicate_false],
          by simp [visAt, getD_replicate_false]⟩)
  rcases h with ⟨r1, r2, r3, r4, _, _, r7⟩
  exact ⟨r1, r2, r3, r4, fun j hj hp => r7 j (List.mem_range.mpr hj) hp⟩

/-- Every record is visited or marked once the loop finishes: by induction
on a rank function certifying acyclicity, a record either is a root (then
visited) or has a parent that is visited or marked, and the invariants push
the property down. -/
theorem need_compilation_covered (G : List SFRec) (hwf : WfGraph G)
    (rank : Nat → Nat)
    (hrank : ∀ i, i < G.length → ∀ p ∈ parentsOf G i, rank p < rank i) :
    ∀ i, i < G.length →
      visAt (need_compilation G).1 i = true
        ∨ needAt (need_compilation G).1 i = true := by
  rcases need_compilation_spec G hwf with ⟨_, hcl, _, hvx, hroots⟩
  have main : ∀ r i, i < G.length → rank i ≤ r →
      visAt (need_compilation G).1 i = true
        ∨ needAt (need_compilation G).1 i = true := by
    intro r
    induction r with
    | zero =>
      intro i hi hr
      cases hpar : parentsOf G i with
      | nil => exact .inl (hroots i hi hpar)
      | cons p ps =>
        have := hrank i hi p (by rw [hpar]; simp)
        omega
    | succ r ihr =>
      intro i hi hr
      cases hpar : parentsOf G i with
      | nil => exact .inl (hroots i hi hpar)
      | cons p ps =>
        have hpmem : p ∈ parentsOf G i := by rw [hpar]; simp
        rcases hwf.1 i hi p hpmem with ⟨hplen, hchild⟩
        have hrp : rank p ≤ r := by
          have := hrank i hi p hpmem
          omega
        rcases ihr p hplen hrp with hv | hn
        · cases hnp : needAt (need_compilation G).1 p with
          | true => exact .inr (hcl p hnp i hchild)
          | false =>
            rcases (hvx p (by simp) hv).2 hnp i hchild with h | h
            · exact .inl h
            · exact .inr h
        · exact .inr (hcl p hn i hchild)
  intro i hi
  exact main (rank i) i hi (le_refl _)

/-- Completeness: every transitively dirty record ends up marked. -/
theorem need_compilation_complete (G : List SFRec) (hwf : WfGraph G)
    (rank : Nat → Nat)
    (hrank : ∀ i, i < G.length → ∀ p ∈ parentsOf G i, rank p < rank i) :
    ∀ i, TransDirty G i → i < G.length →
      needAt (need_compilation G).1 i = true := by
  rcases need_compilation_spec G hwf with ⟨_, hcl, _, hvx, _⟩
  intro i htd
  induction htd with
  | self j hd =>
    intro hj
    rcases need_compilation_covered G hwf rank hrank j hj with hv | hn
    · exact (hvx j (by simp) hv).1 hd
    · exact hn
  | up j p hp htd ih =>
    intro hj
    rcases hwf.1 j hj p hp with ⟨hplen, hchild⟩
    exact hcl p (ih hplen) j hchild

/-- Direct dirtiness as claim C2 words it, including its edge clause: the
artifact is absent or older than the source, AND (per the claim's last
clause) a record whose `source_mtime` is absent is never directly dirty. -/
def directDirtyClaim (r : SFRec) : Prop :=
  (r.compiled_time = none
      ∨ ∃ s ct, r.source_time = some s ∧ r.compiled_time = some ct ∧ ct < s)
    ∧ r.source_time ≠ none

/-- Transitive dirtiness as claim C2 words it, over `directDirtyClaim`. -/
inductive TransDirtyClaim (G : List SFRec) : Nat → Prop
  | self (i : Nat) (r : SFRec) (hr : G.get? i = some r)
      (h : directDirtyClaim r) : TransDirtyClaim G i
  | up (i p : Nat) (hp : p ∈ parentsOf G i) (h : TransDirtyClaim G p) :
      TransDirtyClaim G i

/-- Claim C2 as stated: after dirty propagation, `need_compile` holds
exactly on the records that are transitively dirty in the claim's sense. -/
def ClaimC2 : Prop :=
  ∀ (G : List SFRec) (rank : Nat → Nat), WfGraph G →
    (∀ i, i < G.length → ∀ p ∈ parentsOf G i, rank p < rank i) →
    ∀ i, i < G.length →
      (needAt (need_compilation G).1 i = true ↔ TransDirtyClaim G i)

/-- A single record whose source and artifact are both missing: the code
marks it (absent artifact dominates), the claim's edge clause says it is
never directly dirty. -/
def dirtyG0 : List SFRec :=
  [{ timestampKind := false, source_time := none, compiled_time := none
     parents := [], children := [] }]

/-- C2 counterexample: on a single record with `source_mtime` and
`artifact_mtime` both absent, `need_compilation` sets `need_compile`
(the `!compiled_time` disjunct fires), but the claim - whose edge clause
says a record with absent `source_mtime` never becomes directly dirty, and
which has no parents to inherit dirtiness from - requires `need_compile`
to be false.  So the claim as stated is false. -/
theorem c2_absent_source_marked : ¬ ClaimC2 := by
  intro h
  have hwf0 : WfGraph dirtyG0 := by
    constructor
    · intro i hi p hp
      simp only [dirtyG0, List.length_cons, List.length_nil] at hi
      interval_cases i
      simp [parentsOf, dirtyG0] at hp
    · intro i hi c hc
      simp only [dirtyG0, List.length_cons, List.length_nil] at hi
      interval_cases i
      simp [childrenOf, dirtyG0] at hc
  have hrank0 : ∀ i, i < dirtyG0.length → ∀ p ∈ parentsOf dirtyG0 i,
      (fun j => j) p < (fun j => j) i := by
    intro i hi p hp
    simp only [dirtyG0, List.length_cons, List.length_nil] at hi
    interval_cases i
    simp [parentsOf, dirtyG0] at hp
  have h0 := h dirtyG0 (fun j => j) hwf0 hrank0 0 (by simp [dirtyG0])
  have hdir : dirB dirtyG0 0 = true := by
    simp [dirB, dirtyG0, directDirty]
  have hneed : needAt (need_compilation dirtyG0).1 0 = true :=
    need_compilation_complete dirtyG0 hwf0 (fun j => j) hrank0 0
      (.self 0 hdir) (by simp [dirtyG0])
  have htdc := h0.mp hneed
  cases htdc with
  | self _ r hr hd =>
    simp [dirtyG0] at hr
    rw [← hr] at hd
    exact hd.2 rfl
  | up _ p hp _ =>
    simp [parentsOf, dirtyG0] at hp

/-- C2 amended: with the edge clause corrected - a record whose
`source_mtime` is absent is directly dirty exactly when its
`artifact_mtime` is also absent (artifact absence dominates) - the
propagation is exact: for every well-formed acyclic graph, `need_compile`
holds exactly on the transitively dirty records, where a record is directly
dirty iff its artifact is absent or its source is newer, and dirtiness
descends from parents to children (a directly dirty root marks its entire
descendant subtree). -/
theorem c2_amended_dirty_propagation (G : List SFRec) (rank : Nat → Nat)
    (hwf : WfGraph G)
    (hrank : ∀ i, i < G.length → ∀ p ∈ parentsOf G i, rank p < rank i)
    (i : Nat) (hi : i < G.length) :
    (needAt (need_compilation G).1 i = true ↔ TransDirty G i) := by
  constructor
  · exact fun h => (need_compilation_spec G hwf).2.2.1 i h
  · exact fun h => need_compilation_complete G hwf rank hrank i h hi

/-- A two-record chain: a dirty root (artifact absent) over a clean child. -/
def dirtyG1 : List SFRec :=
  [{ timestampKind := false, source_time := some 5, compiled_time := none
     parents := [], children := [1] },
   { timestampKind := false, source_time := some 3, compiled_time := some 4
     parents := [0], children := [] }]

/-- Witness for the amended C2: on the concrete chain the child of the
dirty root is marked, and is indeed transitively dirty. -/
theorem c2_amended_dirty_propagation_witness :
    (WfGraph dirtyG1
        ∧ (∀ i, i < dirtyG1.length → ∀ p ∈ parentsOf dirtyG1 i,
            (fun j => j) p < (fun j => j) i)
        ∧ 1 < dirtyG1.length)
      ∧ (needAt (need_compilation dirtyG1).1 1 = true ↔ TransDirty dirtyG1 1) :=
  ⟨⟨by decide, by decide, by decide⟩,
    c2_amended_dirty_propagation dirtyG1 (fun j => j) (by decide) (by decide) 1
      (by decide)⟩

/-! ## Full build pipeline (idempotence)
Composed from `need_compilation` (dependency_tree.cpp:189-199),
`compile_file` (compile.cpp:149-217), and the driver logic of
`Main::compile_and_link` (main.cpp:529-574): the compiler runs only when
`compile_count != 0`, and the link step runs iff something was compiled or
the final artifact file is missing (`do_link = compile_count != 0 ||
!fs::exists(context.output_file)`, main.cpp:546).  The scheduler's parallel
drain is modelled as a pass over the marked records in index order; with an
acyclic graph and no failures this produces the same set of artifacts
(spec 8, parallelism correctness). -/

/-- On-disk state of one record between runs: the source file's mtime, the
artifact file's mtime (`none` when absent), the graph edges and the kind. -/
structure PRec where
  timestampKind : Bool
  srcM : Option Nat
  artM : Option Nat
  parents : List Nat
  children : List Nat
deriving DecidableEq, Repr

/-- Modelled from the spec: loading a record at the start of a run.  The
new-generation code that fills `source_time`/`compiled_time` (the
`SourceFile` constructor and its loader) is not under src/; per the spec's
data model, `source_mtime` is the source file's mtime and `artifact_mtime`
is the artifact file's mtime, absent when the artifact was never built. -/
def loadRec (p : PRec) : SFRec :=
  { timestampKind := p.timestampKind, source_time := p.srcM
    compiled_time := p.artM, parents := p.parents, children := p.children }

/-- The graph a run sees after loading every record from disk. -/
def loadGraph (fs : List PRec) : List SFRec := fs.map loadRec

/-- Filesystem effect of `compile_file` on one record: the artifact file's
mtime afterwards is `compile_file`'s artifact result (written at time `T` on
success, removed on failure); the source file is untouched. -/
def applyCompile (p : PRec) (exitCode T : Nat) : PRec :=
  { p with artM := (compile_file (loadRec p) p.srcM exitCode T).2.1 }

/-- The compile phase: run `compile_file` on every record marked
`need_compile`, in index order (standing in for the pool drain, which on an
acyclic graph without failures compiles exactly the marked records). -/
def compilePhase (fs : List PRec) (marked : DirtySt) (exits : Nat → Nat)
    (T : Nat) : List PRec :=
  (List.range fs.length).foldl
    (fun acc i =>
      if needAt marked i then
        match acc.get? i with
        | some p => acc.set i (applyCompile p (exits i) T)
        | none => acc
      else acc)
    fs

/-- Result of one full build run. -/
structure BuildResult where
  fs : List PRec
  outExists : Bool
  compileInvocations : Nat
  linked : Bool

/-- One full build run (`Main::compile_and_link`): load the graph, mark via
`need_compilation`, compile only when `compile_count != 0` (the `Compiler`
is not even constructed otherwise), then link iff something was compiled or
the output file is missing; a successful link leaves the output present. -/
def runBuild (fs : List PRec) (exits : Nat → Nat) (T : Nat)
    (outExists linkOk : Bool) : BuildResult :=
  let nc := need_compilation (loadGraph fs)
  let fs' := if nc.2 ≠ 0 then compilePhase fs nc.1 exits T else fs
  let inv := if nc.2 ≠ 0 then
      ((List.range fs.length).filter (fun i => needAt nc.1 i)).length
    else 0
  let doLink := nc.2 ≠ 0 ∨ outExists = false
  { fs := fs'
    outExists := if doLink then linkOk else outExists
    compileInvocations := inv
    linked := doLink }

/-- Marking a node always contributes at least one to the compile count. -/
theorem mark_count_pos (G : List SFRec) (fuel i : Nat) (st : DirtySt) :
    1 ≤ (mark_file_for_compilation G fuel i st).2 := by
  cases fuel <;> simp [mark_file_for_compilation]

/-- A zero compile count means the check pass marked nothing. -/
theorem check_count_zero (G : List SFRec) :
    ∀ fuel : Nat,
      (∀ i st, (check_file_for_compilation G fuel i st).2 = 0 →
        (check_file_for_compilation G fuel i st).1.need = st.need)
      ∧ (∀ cs st, (checkChildren G fuel cs st).2 = 0 →
        (checkChildren G fuel cs st).1.need = st.need) := by
  intro fuel
  induction fuel with
  | zero =>
    constructor
    · intro i st _
      simp [check_file_for_compilation]
    · intro cs
      induction cs with
      | nil => intro st _; simp [checkChildren]
      | cons c rest ihc =>
        intro st hz
        simp only [checkChildren] at hz ⊢
        by_cases hg : (!needAt st c && !visAt st c) = true
        · rw [if_pos hg] at hz ⊢
          simp only [check_file_for_compilation] at hz ⊢
          exact ihc st (by omega)
        · rw [if_neg hg] at hz ⊢
          exact ihc st hz
  | succ f ih =>
    have hchk : ∀ i st, (check_file_for_compilation G (f + 1) i st).2 = 0 →
        (check_file_for_compilation G (f + 1) i st).1.need = st.need := by
      intro i st hz
      simp only [check_file_for_compilation] at hz ⊢
      by_cases hg : dirB G i = true
      · rw [if_pos hg] at hz ⊢
        have := mark_count_pos G (G.length + 1) i
          { st with vis := st.vis.set i true }
        omega
      · rw [if_neg hg] at hz ⊢
        exact ih.2 (childrenOf G i) _ hz
    constructor
    · exact hchk
    · intro cs
      induction cs with
      | nil => intro st _; simp [checkChildren]
      | cons c rest ihc =>
        intro st hz
        simp only [checkChildren] at hz ⊢
        by_cases hg : (!needAt st c && !visAt st c) = true
        · rw [if_pos hg] at hz ⊢
          have h1 : (check_file_for_compilation G (f + 1) c st).2 = 0 := by omega
          have h2 : (checkChildren G (f + 1) rest
              (check_file_for_compilation G (f + 1) c st).1).2 = 0 := by omega
          rw [ihc _ h2, hchk c st h1]
        · rw [if_neg hg] at hz ⊢
          exact ihc st hz

/-- A zero total compile count means nothing was marked anywhere. -/
theorem ncFold_count_zero (G : List SFRec) :
    ∀ (l : List Nat) (st : DirtySt) (k : Nat),
      (l.foldl (ncStep G) (st, k)).2 = 0 →
      (l.foldl (ncStep G) (st, k)).1.need = st.need ∧ k = 0 := by
  intro l
  induction l with
  | nil =>
    intro st k h
    simp only [List.foldl_nil] at h ⊢
    exact ⟨trivial, h⟩
  | cons i rest ihl =>
    intro st k h
    simp only [List.foldl_cons] at h ⊢
    by_cases hroot : (parentsOf G i).length = 0
    · have hstep : ncStep G (st, k) i
          = ((check_file_for_compilation G (G.length + 1) i st).1,
              k + (check_file_for_compilation G (G.length + 1) i st).2) := by
        simp [ncStep, hroot]
      rw [hstep] at h ⊢
      rcases ihl _ _ h with ⟨hneed, hk⟩
      have hz : (check_file_for_compilation G (G.length + 1) i st).2 = 0 := by omega
      rw [hneed, (check_count_zero G (G.length + 1)).1 i st hz]
      exact ⟨rfl, by omega⟩
    · have hstep : ncStep G (st, k) i = (st, k) := by simp [ncStep, hroot]
      rw [hstep] at h ⊢
      exact ihl _ _ h

/-- With a zero compile count no record is marked. -/
theorem need_compilation_count_zero (G : List SFRec)
    (h : (need_compilation G).2 = 0) :
    ∀ i, needAt (need_compilation G).1 i = false := by
  intro i
  have h2 := ncFold_count_zero G (List.range G.length)
    { need := List.replicate G.length false, vis := List.replicate G.length false } 0
    (by rw [← need_compilation_eq]; exact h)
  have hne := h2.1
  rw [need_compilation_eq]
  simp only [needAt, hne]
  exact getD_replicate_false _ _

/-- On an everywhere-clean graph the check pass has zero count. -/
theorem check_clean (G : List SFRec) (hclean : ∀ j, dirB G j = false) :
    ∀ fuel : Nat,
      (∀ i st, (check_file_for_compilation G fuel i st).2 = 0)
      ∧ (∀ cs st, (checkChildren G fuel cs st).2 = 0) := by
  intro fuel
  induction fuel with
  | zero =>
    constructor
    · intro i st; simp [check_file_for_compilation]
    · intro cs
      induction cs with
      | nil => intro st; simp [checkChildren]
      | cons c rest ihc =>
        intro st
        simp only [checkChildren]
        by_cases hg : (!needAt st c && !visAt st c) = true
        · rw [if_pos hg]
          simp only [check_file_for_compilation]
          have := ihc st
          omega
        · rw [if_neg hg]
          exact ihc st
  | succ f ih =>
    have hchk : ∀ i st, (check_file_for_compilation G (f + 1) i st).2 = 0 := by
      intro i st
      simp only [check_file_for_compilation]
      rw [if_neg (by simp [hclean i])]
      exact ih.2 (childrenOf G i) _
    constructor
    · exact hchk
    · intro cs
      induction cs with
      | nil => intro st; simp [checkChildren]
      | cons c rest ihc =>
        intro st
        simp only [checkChildren]
        by_cases hg : (!needAt st c && !visAt st c) = true
        · rw [if_pos hg]
          have h1 := hchk c st
          have h2 := ihc (check_file_for_compilation G (f + 1) c st).1
          omega
        · rw [if_neg hg]
          exact ihc st

/-- On an everywhere-clean graph `need_compilation` returns count zero. -/
theorem need_compilation_clean (G : List SFRec)
    (hclean : ∀ j, dirB G j = false) : (need_compilation G).2 = 0 := by
  rw [need_compilation_eq]
  have hfold : ∀ (l : List Nat) (st : DirtySt) (k : Nat),
      (l.foldl (ncStep G) (st, k)).2 = k := by
    intro l
    induction l with
    | nil => intro st k; simp
    | cons i rest ihl =>
      intro st k
      simp only [List.foldl_cons]
      by_cases hroot : (parentsOf G i).length = 0
      · rw [show ncStep G (st, k) i
            = ((check_file_for_compilation G (G.length + 1) i st).1,
                k + (check_file_for_compilation G (G.length + 1) i st).2) from by
              simp [ncStep, hroot]]
        rw [ihl]
        have := (check_clean G hclean (G.length + 1)).1 i st
        omega
      · rw [show ncStep G (st, k) i = (st, k) from by simp [ncStep, hroot]]
        exact ihl st k
  exact hfold _ _ _

/-- The compile phase keeps the record list's length. -/
theorem cpFold_length (marked : DirtySt) (exits : Nat → Nat) (T : Nat) :
    ∀ (l : List Nat) (acc : List PRec),
      (l.foldl (fun acc i =>
        if needAt marked i then
          match acc.get? i with
          | some p => acc.set i (applyCompile p (exits i) T)
          | none => acc
        else acc) acc).length = acc.length := by
  intro l
  induction l with
  | nil => intro acc; rfl
  | cons x t ih =>
    intro acc
    simp only [List.foldl_cons]
    rw [ih]
    by_cases hx : needAt marked x = true
    · rw [if_pos hx]
      cases hg : acc.get? x with
      | none => rfl
      | some p => simp [List.length_set]
    · rw [if_neg hx]

/-- Reading one record after the compile-phase fold: indices below the bound
that are marked carry the compiled record, everything else is untouched. -/
theorem cpFold_get (marked : DirtySt) (exits : Nat → Nat) (T : Nat) :
    ∀ (n : Nat) (acc : List PRec) (j : Nat),
      ((List.range n).foldl (fun acc i =>
        if needAt marked i then
          match acc.get? i with
          | some p => acc.set i (applyCompile p (exits i) T)
          | none => acc
        else acc) acc).get? j
        = if j < n ∧ needAt marked j = true then
            (acc.get? j).map (fun p => applyCompile p (exits j) T)
          else acc.get? j := by
  intro n
  induction n with
  | zero =>
    intro acc j
    rw [if_neg (show ¬(j < 0 ∧ needAt marked j = true) from fun h => by omega)]
    rfl
  | succ n ih =>
    intro acc j
    rw [List.range_succ, List.foldl_append]
    simp only [List.foldl_cons, List.foldl_nil]
    by_cases hn : needAt marked n = true
    · rw [if_pos hn]
      cases hg : ((List.range n).foldl (fun acc i =>
          if needAt marked i then
            match acc.get? i with
            | some p => acc.set i (applyCompile p (exits i) T)
            | none => acc
          else acc) acc).get? n with
      | none =>
        have hnone : acc.get? n = none := by
          have h2 := ih acc n
          rw [if_neg (show ¬(n < n ∧ needAt marked n = true) from
            fun h => by omega)] at h2
          rw [← h2, hg]
        rw [ih]
        by_cases hj : j = n
        · subst hj
          rw [if_neg (show ¬(j < j ∧ needAt marked j = true) from fun h => by omega),
            if_pos (show j < j + 1 ∧ needAt marked j = true from
              ⟨Nat.lt_succ_self j, hn⟩), hnone]
          rfl
        · by_cases hc : j < n ∧ needAt marked j = true
          · rw [if_pos hc, if_pos (show j < n + 1 ∧ needAt marked j = true from
              ⟨by omega, hc.2⟩)]
          · rw [if_neg hc, if_neg (show ¬(j < n + 1 ∧ needAt marked j = true) from
              fun h => hc ⟨by omega, h.2⟩)]
      | some p =>
        have hlt : n < ((List.range n).foldl (fun acc i =>
            if needAt marked i then
              match acc.get? i with
              | some q => acc.set i (applyCompile q (exits i) T)
              | none => acc
            else acc) acc).length := by
          rcases List.get?_eq_some.mp hg with ⟨hl, _⟩
          exact hl
        have haccn : acc.get? n = some p := by
          rw [ih, if_neg (show ¬(n < n ∧ needAt marked n = true) from
            fun h => by omega)] at hg
          exact hg
        by_cases hj : j = n
        · subst hj
          rw [List.get?_set_eq_of_lt _ hlt, haccn,
            if_pos (show j < j + 1 ∧ needAt marked j = true from
              ⟨Nat.lt_succ_self j, hn⟩)]
          rfl
        · rw [List.get?_set_ne _ _ (fun h => hj h.symm), ih]
          by_cases hc : j < n ∧ needAt marked j = true
          · rw [if_pos hc, if_pos (show j < n + 1 ∧ needAt marked j = true from
              ⟨by omega, hc.2⟩)]
          · rw [if_neg hc, if_neg (show ¬(j < n + 1 ∧ needAt marked j = true) from
              fun h => hc ⟨by
                rcases Nat.lt_succ_iff_lt_or_eq.mp h.1 with h1 | h1
                · exact h1
                · exact absurd h1 hj, h.2⟩)]
    · rw [if_neg hn, ih]
      by_cases hc : j < n ∧ needAt marked j = true
      · rw [if_pos hc, if_pos (show j < n + 1 ∧ needAt marked j = true from
          ⟨by omega, hc.2⟩)]
      · rw [if_neg hc, if_neg (show ¬(j < n + 1 ∧ needAt marked j = true) from by
          rintro ⟨h1, h2⟩
          refine hc ⟨?_, h2⟩
          rcases Nat.lt_succ_iff_lt_or_eq.mp h1 with h | h
          · exact h
          · subst h; rw [h2] at hn; exact absurd rfl hn)]

/-- Reading one record of the compile phase's output. -/
theorem compilePhase_get (fs : List PRec) (marked : DirtySt)
    (exits : Nat → Nat) (T : Nat) (j : Nat) :
    (compilePhase fs marked exits T).get? j
      = if j < fs.length ∧ needAt marked j = true then
          (fs.get? j).map (fun p => applyCompile p (exits j) T)
        else fs.get? j :=
  cpFold_get marked exits T fs.length fs j

/-- Direct dirtiness over a loaded graph, read off the on-disk record. -/
theorem dirB_loadGraph (fs : List PRec) (j : Nat) :
    dirB (loadGraph fs) j
      = ((fs.get? j).map (fun p => directDirty (loadRec p))).getD false := by
  rw [dirB, loadGraph, List.get?_map]
  cases fs.get? j <;> rfl

/-- Lengths are preserved by loading. -/
theorem loadGraph_length (fs : List PRec) :
    (loadGraph fs).length = fs.length := by
  simp [loadGraph]

/-- After a successful (exit 0) compile at time `T` later than the source's
mtime, the record read back from disk is not directly dirty: the artifact's
mtime is `T` in both the timestamp and the command branch, and the source
mtime has not moved past it. -/
theorem applyCompile_clean (p : PRec) (T : Nat)
    (hs : ∀ s, p.srcM = some s → s < T) :
    directDirty (loadRec (applyCompile p 0 T)) = false := by
  cases hts : p.timestampKind <;> cases hsrc : p.srcM <;>
    simp_all [applyCompile, loadRec, compile_file, directDirty] <;> omega

/-- After one full successful build run, every record on disk is clean:
compiled records carry a fresh artifact stamped after their source, records
the dirty pass did not mark were not transitively dirty to begin with. -/
theorem run1_all_clean (fs : List PRec) (exits : Nat → Nat) (T : Nat)
    (outExists linkOk : Bool) (rank : Nat → Nat)
    (hwf : WfGraph (loadGraph fs))
    (hrank : ∀ i, i < (loadGraph fs).length →
      ∀ p ∈ parentsOf (loadGraph fs) i, rank p < rank i)
    (hex : ∀ i, exits i = 0)
    (hT : ∀ p ∈ fs, ∀ s, p.srcM = some s → s < T) :
    ∀ j, dirB (loadGraph (runBuild fs exits T outExists linkOk).fs) j = false := by
  intro j
  have hnotd : ∀ k, needAt (need_compilation (loadGraph fs)).1 k = false →
      dirB (loadGraph fs) k = false := by
    intro k hk
    cases hdb : dirB (loadGraph fs) k with
    | false => rfl
    | true =>
      exfalso
      have hk1 : k < (loadGraph fs).length := by
        by_contra hkl
        rw [dirB, List.get?_len_le (by omega)] at hdb
        simp at hdb
      have := need_compilation_complete _ hwf rank hrank k (.self k hdb) hk1
      rw [hk] at this
      exact Bool.false_ne_true this
  have hfs : (runBuild fs exits T outExists linkOk).fs
      = if (need_compilation (loadGraph fs)).2 ≠ 0 then
          compilePhase fs (need_compilation (loadGraph fs)).1 exits T
        else fs := rfl
  rw [hfs]
  by_cases hnc : (need_compilation (loadGraph fs)).2 = 0
  · rw [if_neg (fun h => h hnc)]
    exact hnotd j (need_compilation_count_zero _ hnc j)
  · rw [if_pos hnc, dirB_loadGraph, compilePhase_get]
    by_cases hcase : j < fs.length
        ∧ needAt (need_compilation (loadGraph fs)).1 j = true
    · rw [if_pos hcase]
      cases hg : fs.get? j with
      | none => rfl
      | some p =>
        have : directDirty (loadRec (applyCompile p (exits j) T)) = false := by
          rw [hex j]
          exact applyCompile_clean p T (fun s hs => hT p (List.get?_mem hg) s hs)
        simp [this]
    · rw [if_neg hcase, ← dirB_loadGraph]
      by_cases hj : j < fs.length
      · refine hnotd j ?_
        cases hne : needAt (need_compilation (loadGraph fs)).1 j with
        | false => rfl
        | true => exact absurd ⟨hj, hne⟩ hcase
      · rw [dirB, List.get?_len_le (by rw [loadGraph_length]; omega)]
        rfl

/-- C3: running a full build twice in a row with no source changes in
between - the first run's compile commands all succeed (exit 0), the build
time `T` is later than every source mtime, and the loaded graph is the
well-formed acyclic dependency graph - causes zero compile step invocations
on the second run, and the second run links exactly when the final artifact
file is missing after the first run (`do_link = compile_count != 0 ||
!fs::exists(output_file)` with `compile_count = 0`). -/
theorem c3_second_run_idempotent (fs : List PRec) (exits exits2 : Nat → Nat)
    (T T2 : Nat) (outExists linkOk linkOk2 : Bool) (rank : Nat → Nat)
    (hwf : WfGraph (loadGraph fs))
    (hrank : ∀ i, i < (loadGraph fs).length →
      ∀ p ∈ parentsOf (loadGraph fs) i, rank p < rank i)
    (hex : ∀ i, exits i = 0)
    (hT : ∀ p ∈ fs, ∀ s, p.srcM = some s → s < T) :
    (runBuild (runBuild fs exits T outExists linkOk).fs exits2 T2
        (runBuild fs exits T outExists linkOk).outExists linkOk2).compileInvocations = 0
      ∧ ((runBuild (runBuild fs exits T outExists linkOk).fs exits2 T2
          (runBuild fs exits T outExists linkOk).outExists linkOk2).linked = true
        ↔ (runBuild fs exits T outExists linkOk).outExists = false) := by
  have hclean := run1_all_clean fs exits T outExists linkOk rank hwf hrank hex hT
  have hnc2 : (need_compilation
      (loadGraph (runBuild fs exits T outExists linkOk).fs)).2 = 0 :=
    need_compilation_clean _ hclean
  constructor
  · show (if (need_compilation
        (loadGraph (runBuild fs exits T outExists linkOk).fs)).2 ≠ 0 then
          ((List.range (runBuild fs exits T outExists linkOk).fs.length).filter
            (fun i => needAt (need_compilation
              (loadGraph (runBuild fs exits T outExists linkOk).fs)).1 i)).length
        else 0) = 0
    rw [if_neg (fun h => h hnc2)]
  · show decide ((need_compilation
        (loadGraph (runBuild fs exits T outExists linkOk).fs)).2 ≠ 0
        ∨ (runBuild fs exits T outExists linkOk).outExists = false) = true
      ↔ (runBuild fs exits T outExists linkOk).outExists = false
    rw [hnc2]
    simp

/-- A one-record project: one compilation unit, source mtime 1, never built. -/
def c3Fs0 : List PRec :=
  [{ timestampKind := false, srcM := some 1, artM := none
     parents := [], children := [] }]

/-- Witness for C3 on the one-record project built at time 5: the second run
issues no compile invocation and links exactly when the output is missing. -/
theorem c3_second_run_idempotent_witness :
    WfGraph (loadGraph c3Fs0)
      ∧ ((runBuild (runBuild c3Fs0 (fun _ => 0) 5 false true).fs (fun _ => 0) 9
          (runBuild c3Fs0 (fun _ => 0) 5 false true).outExists true).compileInvocations = 0
        ∧ ((runBuild (runBuild c3Fs0 (fun _ => 0) 5 false true).fs (fun _ => 0) 9
            (runBuild c3Fs0 (fun _ => 0) 5 false true).outExists true).linked = true
          ↔ (runBuild c3Fs0 (fun _ => 0) 5 false true).outExists = false)) :=
  ⟨by decide,
    c3_second_run_idempotent c3Fs0 (fun _ => 0) (fun _ => 0) 5 9 false true true
      (fun i => i) (by decide) (by decide) (fun _ => rfl)
      (by
        intro p hp s hs
        simp only [c3Fs0, List.mem_singleton] at hp
        subst hp
        simp at hs
        omega)⟩

/- ## The parallel compile scheduler (compile.cpp:24-45, 71-91)

`compile_all` walks the dependency graph with a thread pool: every root
(parentless record) is passed to `add_to_compile_queue`; a record with
`need_compile` is enqueued as a pool task that runs `compile_file` and on
success calls `mark_compiled`, a record without it falls straight through to
`mark_compiled`; `mark_compiled` increments each child's atomic
`compiled_parents` counter and enqueues the child exactly when the counter
reaches the child's parent count.  The model below is a small-step
transition system over the multiset of outstanding work items; a
synchronous call made inside `mark_compiled`'s loop is relaxed into a
separate pending item, which only adds interleavings, so every behaviour of
the C++ scheduler (for any worker count) is a run of this system.  A trace
records the observable events: `enq` (pool.enqueue), `pass` (a no-compile
record falling through), `start`/`fin` (a worker beginning and finishing a
compile, `fin i false` setting `info[i].failed`), `mdone` (a
`mark_compiled` loop running off the end of the child list). -/

/-- The slice of a `SourceFile` the scheduler reads: `need_compile` and the
two edge lists. -/
structure SNode where
  need : Bool
  parents : List Nat
  children : List Nat
deriving DecidableEq, Repr

/-- Child list of record `i` (`files[i].children`). -/
def chN (G : List SNode) (i : Nat) : List Nat :=
  ((G.get? i).map (fun r => r.children)).getD []

/-- Parent list of record `i` (`files[i].parents`). -/
def parN (G : List SNode) (i : Nat) : List Nat :=
  ((G.get? i).map (fun r => r.parents)).getD []

/-- `files[i].need_compile`. -/
def needN (G : List SNode) (i : Nat) : Bool :=
  ((G.get? i).map (fun r => r.need)).getD false

/-- `files[i].parents.size()`, the enqueue threshold of `mark_compiled`. -/
def pcN (G : List SNode) (i : Nat) : Nat := (parN G i).length

/-- An outstanding work item: a pending `add_to_compile_queue(i)` call, a
pool task not yet picked up, a compile in progress, or a `mark_compiled`
loop with its remaining children. -/
inductive SCall where
  | add (i : Nat)
  | run (i : Nat)
  | exec (i : Nat)
  | mark (i : Nat) (cs : List Nat)
deriving DecidableEq, Repr

/-- An observable scheduler event. -/
inductive SEv where
  | enq (i : Nat)
  | pass (i : Nat)
  | start (i : Nat)
  | fin (i : Nat) (ok : Bool)
  | mdone (i : Nat)
deriving DecidableEq, Repr

/-- A scheduler state: outstanding work, the `compiled_parents` counters,
and the event trace so far. -/
structure SState where
  pending : List SCall
  cnt : Nat → Nat
  tr : List SEv

/-- One atomic counter increment (`++info[c].compiled_parents`). -/
def bump (f : Nat → Nat) (c : Nat) : Nat → Nat :=
  fun j => if j = c then f j + 1 else f j

/-- One scheduler step.  `fails i` tells whether `compile_file` on record
`i` would return an error (its exit status is fixed by the input files). -/
inductive SStep (G : List SNode) (fails : Nat → Bool) : SState → SState → Prop where
  | add_enq (l r : List SCall) (i : Nat) (cnt : Nat → Nat) (tr : List SEv)
      (hn : needN G i = true) :
      SStep G fails ⟨l ++ SCall.add i :: r, cnt, tr⟩
        ⟨l ++ SCall.run i :: r, cnt, tr ++ [SEv.enq i]⟩
  | add_pass (l r : List SCall) (i : Nat) (cnt : Nat → Nat) (tr : List SEv)
      (hn : needN G i = false) :
      SStep G fails ⟨l ++ SCall.add i :: r, cnt, tr⟩
        ⟨l ++ SCall.mark i (chN G i) :: r, cnt, tr ++ [SEv.pass i]⟩
  | task_start (l r : List SCall) (i : Nat) (cnt : Nat → Nat) (tr : List SEv) :
      SStep G fails ⟨l ++ SCall.run i :: r, cnt, tr⟩
        ⟨l ++ SCall.exec i :: r, cnt, tr ++ [SEv.start i]⟩
  | fin_ok (l r : List SCall) (i : Nat) (cnt : Nat → Nat) (tr : List SEv)
      (hf : fails i = false) :
      SStep G fails ⟨l ++ SCall.exec i :: r, cnt, tr⟩
        ⟨l ++ SCall.mark i (chN G i) :: r, cnt, tr ++ [SEv.fin i true]⟩
  | fin_fail (l r : List SCall) (i : Nat) (cnt : Nat → Nat) (tr : List SEv)
      (hf : fails i = true) :
      SStep G fails ⟨l ++ SCall.exec i :: r, cnt, tr⟩
        ⟨l ++ r, cnt, tr ++ [SEv.fin i false]⟩
  | mark_hit (l r : List SCall) (i c : Nat) (cs : List Nat) (cnt : Nat → Nat)
      (tr : List SEv) (hc : cnt c + 1 = pcN G c) :
      SStep G fails ⟨l ++ SCall.mark i (c :: cs) :: r, cnt, tr⟩
        ⟨l ++ SCall.add c :: SCall.mark i cs :: r, bump cnt c, tr⟩
  | mark_miss (l r : List SCall) (i c : Nat) (cs : List Nat) (cnt : Nat → Nat)
      (tr : List SEv) (hc : cnt c + 1 ≠ pcN G c) :
      SStep G fails ⟨l ++ SCall.mark i (c :: cs) :: r, cnt, tr⟩
        ⟨l ++ SCall.mark i cs :: r, bump cnt c, tr⟩
  | mark_done (l r : List SCall) (i : Nat) (cnt : Nat → Nat) (tr : List SEv) :
      SStep G fails ⟨l ++ SCall.mark i [] :: r, cnt, tr⟩
        ⟨l ++ r, cnt, tr ++ [SEv.mdone i]⟩

/-- The initial state of `compile_all`'s drain: one pending
`add_to_compile_queue` call per parentless record, zeroed counters. -/
def initS (G : List SNode) : SState :=
  ⟨((List.range G.length).filter (fun i => pcN G i == 0)).map SCall.add,
    fun _ => 0, []⟩

/-- Reachability from the initial state. -/
inductive SReach (G : List SNode) (fails : Nat → Bool) : SState → Prop where
  | init : SReach G fails (initS G)
  | step {σ σ' : SState} (h : SReach G fails σ) (hs : SStep G fails σ σ') :
      SReach G fails σ'

/-- Occurrences of event `e` in a trace. -/
def evC (tr : List SEv) (e : SEv) : Nat :=
  (tr.map (fun x => if x = e then 1 else 0)).sum

/-- Pending `add i` items. -/
def addsP (p : List SCall) (i : Nat) : Nat :=
  (p.map (fun s => if s = SCall.add i then 1 else 0)).sum

/-- Pending `run i` items. -/
def runsP (p : List SCall) (i : Nat) : Nat :=
  (p.map (fun s => if s = SCall.run i then 1 else 0)).sum

/-- Pending `exec i` items. -/
def execsP (p : List SCall) (i : Nat) : Nat :=
  (p.map (fun s => if s = SCall.exec i then 1 else 0)).sum

/-- Pending `mark_compiled(i)` loops. -/
def marksP (p : List SCall) (i : Nat) : Nat :=
  (p.map (fun s => match s with
    | SCall.mark j _ => if j = i then 1 else 0
    | _ => 0)).sum

/-- Counter increments still to be delivered to `c` by pending
`mark_compiled` loops of in-range records. -/
def remAll (n : Nat) (p : List SCall) (c : Nat) : Nat :=
  (p.map (fun s => match s with
    | SCall.mark j cs => if j < n then cs.count c else 0
    | _ => 0)).sum

/-- 1 when record `i` is a root seeded by `compile_all`'s initial loop. -/
def rootS (G : List SNode) (i : Nat) : Nat :=
  if i < G.length ∧ pcN G i = 0 then 1 else 0

/-- 1 when the counter of `i` has reached its enqueue threshold (which,
counters being monotone, records whether `mark_compiled` has fired the
`++compiled_parents == parents.size()` test for `i`). -/
def hitC (G : List SNode) (cnt : Nat → Nat) (i : Nat) : Nat :=
  if 1 ≤ pcN G i ∧ pcN G i ≤ cnt i then 1 else 0

/-- Well-formedness of the scheduler's input graph, as `DependencyTree`
hands it over: a record's parent count equals its multiplicity across all
child lists, and the two edge directions agree. -/
@[reducible] def SWf (G : List SNode) : Prop :=
  (∀ c, c < G.length →
    pcN G c = ∑ i ∈ Finset.range G.length, (chN G i).count c)
  ∧ (∀ a, a < G.length → ∀ c ∈ chN G a, c < G.length ∧ a ∈ parN G c)
  ∧ (∀ c, c < G.length → ∀ p ∈ parN G c, p < G.length ∧ c ∈ chN G p)

/-- The inductive invariant of the scheduler: conservation of work items
against trace events, marks bounded by their origins, suffix shape of the
running mark loops, and the counter accounting equation. -/
def SInv (G : List SNode) (fails : Nat → Bool) (σ : SState) : Prop :=
  (∀ i, marksP σ.pending i + evC σ.tr (SEv.mdone i)
      = evC σ.tr (SEv.pass i) + evC σ.tr (SEv.fin i true))
  ∧ (∀ i, addsP σ.pending i + evC σ.tr (SEv.enq i) + evC σ.tr (SEv.pass i)
      = rootS G i + hitC G σ.cnt i)
  ∧ (∀ i, runsP σ.pending i + evC σ.tr (SEv.start i) = evC σ.tr (SEv.enq i))
  ∧ (∀ i, execsP σ.pending i + evC σ.tr (SEv.fin i true)
      + evC σ.tr (SEv.fin i false) = evC σ.tr (SEv.start i))
  ∧ (∀ i cs, SCall.mark i cs ∈ σ.pending →
      cs.Sublist (chN G i) ∧ i < G.length)
  ∧ (∀ c, σ.cnt c + remAll G.length σ.pending c
      = ∑ i ∈ Finset.range G.length,
          (chN G i).count c * (evC σ.tr (SEv.pass i) + evC σ.tr (SEv.fin i true)))
  ∧ (∀ i, G.length ≤ i → addsP σ.pending i = 0 ∧ runsP σ.pending i = 0
      ∧ execsP σ.pending i = 0 ∧ evC σ.tr (SEv.enq i) = 0
      ∧ evC σ.tr (SEv.pass i) = 0)
  ∧ (∀ i, 1 ≤ evC σ.tr (SEv.enq i) → needN G i = true)
  ∧ (∀ i, 1 ≤ evC σ.tr (SEv.pass i) → needN G i = false)
  ∧ (∀ i, 1 ≤ evC σ.tr (SEv.fin i true) → fails i = false)
  ∧ (∀ i, 1 ≤ evC σ.tr (SEv.fin i false) → fails i = true)

/-- Appending one event to the trace shifts one counter. -/
theorem evC_snoc (tr : List SEv) (e e' : SEv) :
    evC (tr ++ [e]) e' = evC tr e' + (if e = e' then 1 else 0) := by
  simp [evC]

/-- Summing the indicator of `i` over the roots filtered out of `range n`. -/
theorem sum_char_filter_range (n : Nat) (P : Nat → Bool) (i : Nat) :
    ((((List.range n).filter P)).map (fun j => if j = i then 1 else 0)).sum
      = if i < n ∧ P i = true then 1 else 0 := by
  induction n with
  | zero => simp
  | succ n ih =>
    rw [List.range_succ, List.filter_append, List.map_append, List.sum_append, ih]
    by_cases hp : P n = true
    · simp only [List.filter_cons, List.filter_nil, hp, if_true, List.map_cons,
        List.map_nil, List.sum_cons, List.sum_nil]
      by_cases hni : n = i
      · subst hni
        rw [if_pos rfl,
          if_neg (show ¬(n < n ∧ P n = true) from fun h => by omega),
          if_pos (show n < n + 1 ∧ P n = true from ⟨Nat.lt_succ_self n, hp⟩)]
        omega
      · rw [if_neg hni]
        by_cases hc : i < n ∧ P i = true
        · rw [if_pos hc,
            if_pos (show i < n + 1 ∧ P i = true from ⟨by omega, hc.2⟩)]
          omega
        · rw [if_neg hc,
            if_neg (show ¬(i < n + 1 ∧ P i = true) from fun h => by
              refine hc ⟨?_, h.2⟩
              rcases Nat.lt_succ_iff_lt_or_eq.mp h.1 with h' | h'
              · exact h'
              · exact absurd h'.symm hni)]
          omega
    · have hp' : P n = false := by
        cases h : P n
        · rfl
        · exact absurd h hp
      simp only [List.filter_cons, List.filter_nil, hp', Bool.false_eq_true,
        if_false, List.map_nil, List.sum_nil]
      by_cases hc : i < n ∧ P i = true
      · rw [if_pos hc,
          if_pos (show i < n + 1 ∧ P i = true from ⟨by omega, hc.2⟩)]
        omega
      · rw [if_neg hc,
          if_neg (show ¬(i < n + 1 ∧ P i = true) from fun h => by
            refine hc ⟨?_, h.2⟩
            rcases Nat.lt_succ_iff_lt_or_eq.mp h.1 with h' | h'
            · exact h'
            · subst h'
              rw [h.2] at hp'
              exact absurd hp' (by simp))]
        omega

/-- Raising one factor of a product sum by 1 at an in-range index. -/
theorem sumBump (n i : Nat) (hi : i < n) (f g : Nat → Nat) :
    (∑ j ∈ Finset.range n, f j * (g j + if j = i then 1 else 0))
      = (∑ j ∈ Finset.range n, f j * g j) + f i := by
  have h1 : ∀ j, f j * (g j + if j = i then 1 else 0)
      = f j * g j + (if j = i then f j else 0) := by
    intro j
    by_cases hj : j = i
    · rw [if_pos hj, if_pos hj]; ring
    · rw [if_neg hj, if_neg hj]; ring
  simp only [h1, Finset.sum_add_distrib]
  congr 1
  rw [Finset.sum_ite_eq' (Finset.range n) i f]
  rw [if_pos (Finset.mem_range.mpr hi)]

/-- The invariant holds at the initial state. -/
theorem sinv_init (G : List SNode) (fails : Nat → Bool) :
    SInv G fails (initS G) := by
  have hadds : ∀ i, addsP (initS G).pending i
      = if i < G.length ∧ pcN G i = 0 then 1 else 0 := by
    intro i
    rw [show (initS G).pending
        = ((List.range G.length).filter (fun j => pcN G j == 0)).map SCall.add
      from rfl]
    rw [addsP, List.map_map]
    have hfun : ((fun s => if s = SCall.add i then 1 else 0) ∘ SCall.add)
        = (fun j => if j = i then (1 : Nat) else 0) := by
      funext j
      show (if SCall.add j = SCall.add i then (1 : Nat) else 0)
        = if j = i then 1 else 0
      by_cases hj : j = i
      · subst hj; rw [if_pos rfl, if_pos rfl]
      · rw [if_neg (show ¬(SCall.add j = SCall.add i) from by simp [hj]),
          if_neg hj]
    rw [hfun, sum_char_filter_range]
    by_cases hc : i < G.length ∧ pcN G i = 0
    · rw [if_pos hc, if_pos ⟨hc.1, by simp [hc.2]⟩]
    · rw [if_neg hc, if_neg (fun h => hc ⟨h.1, by simpa using h.2⟩)]
  have hmem : ∀ s, s ∈ (initS G).pending → ∃ j, s = SCall.add j := by
    intro s hs
    rw [show (initS G).pending
        = ((List.range G.length).filter (fun j => pcN G j == 0)).map SCall.add
      from rfl] at hs
    rcases List.mem_map.mp hs with ⟨j, _, hj⟩
    exact ⟨j, hj.symm⟩
  have hzero : ∀ (f : SCall → Nat), (∀ j, f (SCall.add j) = 0) →
      ((initS G).pending.map f).sum = 0 := by
    intro f hf
    rw [List.sum_eq_zero]
    intro x hx
    rcases List.mem_map.mp hx with ⟨s, hs, hsx⟩
    rcases hmem s hs with ⟨j, hj⟩
    rw [← hsx, hj, hf]
  refine ⟨?_, ?_, ?_, ?_, ?_, ?_, ?_, ?_, ?_, ?_, ?_⟩
  · intro i
    rw [show (initS G).tr = [] from rfl]
    rw [show marksP (initS G).pending i = 0 from hzero _ (fun j => rfl)]
    rfl
  · intro i
    rw [show (initS G).tr = [] from rfl, hadds]
    show (if i < G.length ∧ pcN G i = 0 then 1 else 0) + 0 + 0
        = rootS G i + hitC G (fun _ => 0) i
    rw [rootS, hitC, if_neg (show ¬(1 ≤ pcN G i ∧ pcN G i ≤ 0) from
      fun h => by omega)]
  · intro i
    rw [show (initS G).tr = [] from rfl]
    rw [show runsP (initS G).pending i = 0 from hzero _ (fun j => by
      rw [if_neg (by simp)])]
    rfl
  · intro i
    rw [show (initS G).tr = [] from rfl]
    rw [show execsP (initS G).pending i = 0 from hzero _ (fun j => by
      rw [if_neg (by simp)])]
    rfl
  · intro i cs hcs
    rcases hmem _ hcs with ⟨j, hj⟩
    exact absurd hj (by simp)
  · intro c
    rw [show (initS G).tr = [] from rfl]
    rw [show remAll G.length (initS G).pending c = 0 from hzero _ (fun j => rfl)]
    rw [show (initS G).cnt c = 0 from rfl]
    rw [Finset.sum_eq_zero (fun i _ => by
      rw [show evC [] (SEv.pass i) = 0 from rfl,
        show evC [] (SEv.fin i true) = 0 from rfl]
      omega)]
    omega
  · intro i hi
    rw [show (initS G).tr = [] from rfl, hadds,
      if_neg (show ¬(i < G.length ∧ pcN G i = 0) from fun h => by omega)]
    refine ⟨rfl, ?_, ?_, rfl, rfl⟩
    · exact hzero _ (fun j => by rw [if_neg (by simp)])
    · exact hzero _ (fun j => by rw [if_neg (by simp)])
  · intro i h
    rw [show (initS G).tr = [] from rfl] at h
    exact absurd h (by simp [evC])
  · intro i h
    rw [show (initS G).tr = [] from rfl] at h
    exact absurd h (by simp [evC])
  · intro i h
    rw [show (initS G).tr = [] from rfl] at h
    exact absurd h (by simp [evC])
  · intro i h
    rw [show (initS G).tr = [] from rfl] at h
    exact absurd h (by simp [evC])

/-- Map-sum over a list with one distinguished element. -/
theorem mapSum_middle (f : SCall → Nat) (l r : List SCall) (x : SCall) :
    ((l ++ x :: r).map f).sum = (l.map f).sum + f x + (r.map f).sum := by
  rw [List.map_append, List.sum_append, List.map_cons, List.sum_cons]
  omega

/-- Map-sum over a list with two distinguished adjacent elements. -/
theorem mapSum_middle2 (f : SCall → Nat) (l r : List SCall) (x y : SCall) :
    ((l ++ x :: y :: r).map f).sum
      = (l.map f).sum + f x + f y + (r.map f).sum := by
  rw [List.map_append, List.sum_append, List.map_cons, List.sum_cons,
    List.map_cons, List.sum_cons]
  omega

/-- Map-sum over a plain append. -/
theorem mapSum_append (f : SCall → Nat) (l r : List SCall) :
    ((l ++ r).map f).sum = (l.map f).sum + (r.map f).sum := by
  rw [List.map_append, List.sum_append]

/-- Appending a `pass i` event raises the counter accounting sum by the
multiplicity of `c` among `i`'s children. -/
theorem sumRHS_snoc_pass (G : List SNode) (tr : List SEv) (i : Nat)
    (hi : i < G.length) (c : Nat) :
    (∑ j ∈ Finset.range G.length, (chN G j).count c *
        (evC (tr ++ [SEv.pass i]) (SEv.pass j)
          + evC (tr ++ [SEv.pass i]) (SEv.fin j true)))
      = (∑ j ∈ Finset.range G.length, (chN G j).count c *
          (evC tr (SEv.pass j) + evC tr (SEv.fin j true))) + (chN G i).count c := by
  rw [← sumBump G.length i hi (fun j => (chN G j).count c)
    (fun j => evC tr (SEv.pass j) + evC tr (SEv.fin j true))]
  refine Finset.sum_congr rfl (fun j _ => ?_)
  rw [evC_snoc, evC_snoc,
    if_neg (show ¬(SEv.pass i = SEv.fin j true) from by simp)]
  have hiff : (if SEv.pass i = SEv.pass j then 1 else 0)
      = (if j = i then (1 : Nat) else 0) := by
    by_cases hj : j = i
    · subst hj; rw [if_pos rfl, if_pos rfl]
    · rw [if_neg (show ¬(SEv.pass i = SEv.pass j) from by
        simp; exact fun h => hj h.symm), if_neg hj]
  rw [hiff]
  ring

/-- Appending a `fin i true` event raises the counter accounting sum by the
multiplicity of `c` among `i`'s children. -/
theorem sumRHS_snoc_finok (G : List SNode) (tr : List SEv) (i : Nat)
    (hi : i < G.length) (c : Nat) :
    (∑ j ∈ Finset.range G.length, (chN G j).count c *
        (evC (tr ++ [SEv.fin i true]) (SEv.pass j)
          + evC (tr ++ [SEv.fin i true]) (SEv.fin j true)))
      = (∑ j ∈ Finset.range G.length, (chN G j).count c *
          (evC tr (SEv.pass j) + evC tr (SEv.fin j true))) + (chN G i).count c := by
  rw [← sumBump G.length i hi (fun j => (chN G j).count c)
    (fun j => evC tr (SEv.pass j) + evC tr (SEv.fin j true))]
  refine Finset.sum_congr rfl (fun j _ => ?_)
  rw [evC_snoc, evC_snoc,
    if_neg (show ¬(SEv.fin i true = SEv.pass j) from by simp)]
  have hiff : (if SEv.fin i true = SEv.fin j true then 1 else 0)
      = (if j = i then (1 : Nat) else 0) := by
    by_cases hj : j = i
    · subst hj; rw [if_pos rfl, if_pos rfl]
    · rw [if_neg (show ¬(SEv.fin i true = SEv.fin j true) from by
        simp; exact fun h => hj h.symm), if_neg hj]
  rw [hiff]
  ring

/-- Appending any event that is neither a `pass` nor a successful `fin`
leaves the counter accounting sum unchanged. -/
theorem sumRHS_snoc_other (G : List SNode) (tr : List SEv) (e : SEv)
    (he : ∀ j, ¬(e = SEv.pass j) ∧ ¬(e = SEv.fin j true)) (c : Nat) :
    (∑ j ∈ Finset.range G.length, (chN G j).count c *
        (evC (tr ++ [e]) (SEv.pass j) + evC (tr ++ [e]) (SEv.fin j true)))
      = ∑ j ∈ Finset.range G.length, (chN G j).count c *
          (evC tr (SEv.pass j) + evC tr (SEv.fin j true)) := by
  refine Finset.sum_congr rfl (fun j _ => ?_)
  rw [evC_snoc, evC_snoc, if_neg (he j).1, if_neg (he j).2]
  ring

/-- The invariant is preserved when a needed record's pending
`add_to_compile_queue` call enqueues its pool task. -/
theorem sinv_add_enq (G : List SNode) (fails : Nat → Bool)
    (l r : List SCall) (i : Nat) (cnt : Nat → Nat) (tr : List SEv)
    (hn : needN G i = true)
    (hinv : SInv G fails ⟨l ++ SCall.add i :: r, cnt, tr⟩) :
    SInv G fails ⟨l ++ SCall.run i :: r, cnt, tr ++ [SEv.enq i]⟩ := by
  obtain ⟨A1, A2, A3, A4, A5, A6, A7, A8a, A8b, A8c, A8d⟩ := hinv
  have hi : i < G.length := by
    by_contra hni
    have h7 := (A7 i (by omega)).1
    rw [addsP, mapSum_middle] at h7
    simp at h7
  refine ⟨?_, ?_, ?_, ?_, ?_, ?_, ?_, ?_, ?_, ?_, ?_⟩
  · intro j
    have h := A1 j
    simp [marksP, mapSum_middle, evC_snoc] at h ⊢
    omega
  · intro j
    have h := A2 j
    by_cases hj : j = i
    · subst hj
      simp [addsP, mapSum_middle, evC_snoc] at h ⊢
      omega
    · simp [addsP, mapSum_middle, evC_snoc, hj, Ne.symm hj] at h ⊢
      omega
  · intro j
    have h := A3 j
    by_cases hj : j = i
    · subst hj
      simp [runsP, mapSum_middle, evC_snoc] at h ⊢
      omega
    · simp [runsP, mapSum_middle, evC_snoc, hj, Ne.symm hj] at h ⊢
      omega
  · intro j
    have h := A4 j
    simp [execsP, mapSum_middle, evC_snoc] at h ⊢
    omega
  · intro j cs hcs
    refine A5 j cs ?_
    rcases List.mem_append.mp hcs with h | h
    · exact List.mem_append.mpr (Or.inl h)
    · rcases List.mem_cons.mp h with h' | h'
      · exact absurd h' (by simp)
      · exact List.mem_append.mpr (Or.inr (List.mem_cons_of_mem _ h'))
  · intro c
    have h := A6 c
    have hother := sumRHS_snoc_other G tr (SEv.enq i)
      (fun j => ⟨by simp, by simp⟩) c
    simp only [remAll] at h ⊢
    rw [mapSum_middle] at h ⊢
    rw [hother]
    simpa using h
  · intro j hj
    have hne : j ≠ i := by omega
    obtain ⟨h1, h2, h3, h4, h5⟩ := A7 j hj
    refine ⟨?_, ?_, ?_, ?_, ?_⟩
    · simp [addsP, mapSum_middle, hne, Ne.symm hne] at h1 ⊢
      omega
    · simp [runsP, mapSum_middle, hne, Ne.symm hne] at h2 ⊢
      omega
    · simp [execsP, mapSum_middle, hne, Ne.symm hne] at h3 ⊢
      omega
    · have h4' : evC tr (SEv.enq j) = 0 := h4
      rw [evC_snoc, if_neg (show ¬(SEv.enq i = SEv.enq j) from by
        simp
        exact fun h => hne h.symm)]
      omega
    · have h5' : evC tr (SEv.pass j) = 0 := h5
      rw [evC_snoc, if_neg (show ¬(SEv.enq i = SEv.pass j) from by simp)]
      omega
  · intro j hj1
    by_cases hj : j = i
    · subst hj; exact hn
    · rw [evC_snoc, if_neg (show ¬(SEv.enq i = SEv.enq j) from by
        simp
        exact fun h => hj h.symm)] at hj1
      have hj2 : 1 ≤ evC tr (SEv.enq j) := by omega
      exact A8a j hj2
  · intro j hj1
    rw [evC_snoc, if_neg (show ¬(SEv.enq i = SEv.pass j) from by simp)] at hj1
    have hj2 : 1 ≤ evC tr (SEv.pass j) := by omega
    exact A8b j hj2
  · intro j hj1
    rw [evC_snoc, if_neg (show ¬(SEv.enq i = SEv.fin j true) from by simp)] at hj1
    have hj2 : 1 ≤ evC tr (SEv.fin j true) := by omega
    exact A8c j hj2
  · intro j hj1
    rw [evC_snoc, if_neg (show ¬(SEv.enq i = SEv.fin j false) from by simp)] at hj1
    have hj2 : 1 ≤ evC tr (SEv.fin j false) := by omega
    exact A8d j hj2

/-- The invariant is preserved when a no-compile record falls through to
`mark_compiled`. -/
theorem sinv_add_pass (G : List SNode) (fails : Nat → Bool)
    (l r : List SCall) (i : Nat) (cnt : Nat → Nat) (tr : List SEv)
    (hn : needN G i = false)
    (hinv : SInv G fails ⟨l ++ SCall.add i :: r, cnt, tr⟩) :
    SInv G fails ⟨l ++ SCall.mark i (chN G i) :: r, cnt, tr ++ [SEv.pass i]⟩ := by
  obtain ⟨A1, A2, A3, A4, A5, A6, A7, A8a, A8b, A8c, A8d⟩ := hinv
  have hi : i < G.length := by
    by_contra hni
    have h7 := (A7 i (by omega)).1
    rw [addsP, mapSum_middle] at h7
    simp at h7
  refine ⟨?_, ?_, ?_, ?_, ?_, ?_, ?_, ?_, ?_, ?_, ?_⟩
  · intro j
    have h := A1 j
    by_cases hj : j = i
    · subst hj
      simp [marksP, mapSum_middle, evC_snoc] at h ⊢
      omega
    · simp [marksP, mapSum_middle, evC_snoc, hj, Ne.symm hj] at h ⊢
      omega
  · intro j
    have h := A2 j
    by_cases hj : j = i
    · subst hj
      simp [addsP, mapSum_middle, evC_snoc] at h ⊢
      omega
    · simp [addsP, mapSum_middle, evC_snoc, hj, Ne.symm hj] at h ⊢
      omega
  · intro j
    have h := A3 j
    simp [runsP, mapSum_middle, evC_snoc] at h ⊢
    omega
  · intro j
    have h := A4 j
    simp [execsP, mapSum_middle, evC_snoc] at h ⊢
    omega
  · intro j cs hcs
    rcases List.mem_append.mp hcs with h | h
    · exact A5 j cs (List.mem_append.mpr (Or.inl h))
    · rcases List.mem_cons.mp h with h' | h'
      · obtain ⟨hji, hcsi⟩ := SCall.mark.inj h'
        subst hji
        subst hcsi
        exact ⟨List.Sublist.refl _, hi⟩
      · exact A5 j cs (List.mem_append.mpr (Or.inr (List.mem_cons_of_mem _ h')))
  · intro c
    have h := A6 c
    have hpass := sumRHS_snoc_pass G tr i hi c
    simp only [remAll] at h ⊢
    rw [mapSum_middle] at h ⊢
    rw [hpass]
    simp [hi] at h ⊢
    omega
  · intro j hj
    have hne : j ≠ i := by omega
    obtain ⟨h1, h2, h3, h4, h5⟩ := A7 j hj
    refine ⟨?_, ?_, ?_, ?_, ?_⟩
    · simp [addsP, mapSum_middle, hne, Ne.symm hne] at h1 ⊢
      omega
    · simp [runsP, mapSum_middle, hne, Ne.symm hne] at h2 ⊢
      omega
    · simp [execsP, mapSum_middle, hne, Ne.symm hne] at h3 ⊢
      omega
    · have h4' : evC tr (SEv.enq j) = 0 := h4
      rw [evC_snoc, if_neg (show ¬(SEv.pass i = SEv.enq j) from by simp)]
      omega
    · have h5' : evC tr (SEv.pass j) = 0 := h5
      rw [evC_snoc, if_neg (show ¬(SEv.pass i = SEv.pass j) from by
        simp
        exact fun h => hne h.symm)]
      omega
  · intro j hj1
    rw [evC_snoc, if_neg (show ¬(SEv.pass i = SEv.enq j) from by simp)] at hj1
    have hj2 : 1 ≤ evC tr (SEv.enq j) := by omega
    exact A8a j hj2
  · intro j hj1
    by_cases hj : j = i
    · subst hj; exact hn
    · rw [evC_snoc, if_neg (show ¬(SEv.pass i = SEv.pass j) from by
        simp
        exact fun h => hj h.symm)] at hj1
      have hj2 : 1 ≤ evC tr (SEv.pass j) := by omega
      exact A8b j hj2
  · intro j hj1
    rw [evC_snoc, if_neg (show ¬(SEv.pass i = SEv.fin j true) from by simp)] at hj1
    have hj2 : 1 ≤ evC tr (SEv.fin j true) := by omega
    exact A8c j hj2
  · intro j hj1
    rw [evC_snoc, if_neg (show ¬(SEv.pass i = SEv.fin j false) from by simp)] at hj1
    have hj2 : 1 ≤ evC tr (SEv.fin j false) := by omega
    exact A8d j hj2

/-- The invariant is preserved when a worker picks a queued task up. -/
theorem sinv_task_start (G : List SNode) (fails : Nat → Bool)
    (l r : List SCall) (i : Nat) (cnt : Nat → Nat) (tr : List SEv)
    (hinv : SInv G fails ⟨l ++ SCall.run i :: r, cnt, tr⟩) :
    SInv G fails ⟨l ++ SCall.exec i :: r, cnt, tr ++ [SEv.start i]⟩ := by
  obtain ⟨A1, A2, A3, A4, A5, A6, A7, A8a, A8b, A8c, A8d⟩ := hinv
  have hi : i < G.length := by
    by_contra hni
    have h7 := (A7 i (by omega)).2.1
    rw [runsP, mapSum_middle] at h7
    simp at h7
  refine ⟨?_, ?_, ?_, ?_, ?_, ?_, ?_, ?_, ?_, ?_, ?_⟩
  · intro j
    have h := A1 j
    simp [marksP, mapSum_middle, evC_snoc] at h ⊢
    omega
  · intro j
    have h := A2 j
    simp [addsP, mapSum_middle, evC_snoc] at h ⊢
    omega
  · intro j
    have h := A3 j
    by_cases hj : j = i
    · subst hj
      simp [runsP, mapSum_middle, evC_snoc] at h ⊢
      omega
    · simp [runsP, mapSum_middle, evC_snoc, hj, Ne.symm hj] at h ⊢
      omega
  · intro j
    have h := A4 j
    by_cases hj : j = i
    · subst hj
      simp [execsP, mapSum_middle, evC_snoc] at h ⊢
      omega
    · simp [execsP, mapSum_middle, evC_snoc, hj, Ne.symm hj] at h ⊢
      omega
  · intro j cs hcs
    refine A5 j cs ?_
    rcases List.mem_append.mp hcs with h | h
    · exact List.mem_append.mpr (Or.inl h)
    · rcases List.mem_cons.mp h with h' | h'
      · exact absurd h' (by simp)
      · exact List.mem_append.mpr (Or.inr (List.mem_cons_of_mem _ h'))
  · intro c
    have h := A6 c
    have hother := sumRHS_snoc_other G tr (SEv.start i)
      (fun j => ⟨by simp, by simp⟩) c
    simp only [remAll] at h ⊢
    rw [mapSum_middle] at h ⊢
    rw [hother]
    simpa using h
  · intro j hj
    have hne : j ≠ i := by omega
    obtain ⟨h1, h2, h3, h4, h5⟩ := A7 j hj
    refine ⟨?_, ?_, ?_, ?_, ?_⟩
    · simp [addsP, mapSum_middle, hne, Ne.symm hne] at h1 ⊢
      omega
    · simp [runsP, mapSum_middle, hne, Ne.symm hne] at h2 ⊢
      omega
    · simp [execsP, mapSum_middle, hne, Ne.symm hne] at h3 ⊢
      omega
    · have h4' : evC tr (SEv.enq j) = 0 := h4
      rw [evC_snoc, if_neg (show ¬(SEv.start i = SEv.enq j) from by simp)]
      omega
    · have h5' : evC tr (SEv.pass j) = 0 := h5
      rw [evC_snoc, if_neg (show ¬(SEv.start i = SEv.pass j) from by simp)]
      omega
  · intro j hj1
    rw [evC_snoc, if_neg (show ¬(SEv.start i = SEv.enq j) from by simp)] at hj1
    have hj2 : 1 ≤ evC tr (SEv.enq j) := by omega
    exact A8a j hj2
  · intro j hj1
    rw [evC_snoc, if_neg (show ¬(SEv.start i = SEv.pass j) from by simp)] at hj1
    have hj2 : 1 ≤ evC tr (SEv.pass j) := by omega
    exact A8b j hj2
  · intro j hj1
    rw [evC_snoc, if_neg (show ¬(SEv.start i = SEv.fin j true) from by simp)] at hj1
    have hj2 : 1 ≤ evC tr (SEv.fin j true) := by omega
    exact A8c j hj2
  · intro j hj1
    rw [evC_snoc, if_neg (show ¬(SEv.start i = SEv.fin j false) from by simp)] at hj1
    have hj2 : 1 ≤ evC tr (SEv.fin j false) := by omega
    exact A8d j hj2

/-- The invariant is preserved when a compile finishes successfully and its
worker enters `mark_compiled`. -/
theorem sinv_fin_ok (G : List SNode) (fails : Nat → Bool)
    (l r : List SCall) (i : Nat) (cnt : Nat → Nat) (tr : List SEv)
    (hf : fails i = false)
    (hinv : SInv G fails ⟨l ++ SCall.exec i :: r, cnt, tr⟩) :
    SInv G fails ⟨l ++ SCall.mark i (chN G i) :: r, cnt, tr ++ [SEv.fin i true]⟩ := by
  obtain ⟨A1, A2, A3, A4, A5, A6, A7, A8a, A8b, A8c, A8d⟩ := hinv
  have hi : i < G.length := by
    by_contra hni
    have h7 := (A7 i (by omega)).2.2.1
    rw [execsP, mapSum_middle] at h7
    simp at h7
  refine ⟨?_, ?_, ?_, ?_, ?_, ?_, ?_, ?_, ?_, ?_, ?_⟩
  · intro j
    have h := A1 j
    by_cases hj : j = i
    · subst hj
      simp [marksP, mapSum_middle, evC_snoc] at h ⊢
      omega
    · simp [marksP, mapSum_middle, evC_snoc, hj, Ne.symm hj] at h ⊢
      omega
  · intro j
    have h := A2 j
    simp [addsP, mapSum_middle, evC_snoc] at h ⊢
    omega
  · intro j
    have h := A3 j
    simp [runsP, mapSum_middle, evC_snoc] at h ⊢
    omega
  · intro j
    have h := A4 j
    by_cases hj : j = i
    · subst hj
      simp [execsP, mapSum_middle, evC_snoc] at h ⊢
      omega
    · simp [execsP, mapSum_middle, evC_snoc, hj, Ne.symm hj] at h ⊢
      omega
  · intro j cs hcs
    rcases List.mem_append.mp hcs with h | h
    · exact A5 j cs (List.mem_append.mpr (Or.inl h))
    · rcases List.mem_cons.mp h with h' | h'
      · obtain ⟨hji, hcsi⟩ := SCall.mark.inj h'
        subst hji
        subst hcsi
        exact ⟨List.Sublist.refl _, hi⟩
      · exact A5 j cs (List.mem_append.mpr (Or.inr (List.mem_cons_of_mem _ h')))
  · intro c
    have h := A6 c
    have hfin := sumRHS_snoc_finok G tr i hi c
    simp only [remAll] at h ⊢
    rw [mapSum_middle] at h ⊢
    rw [hfin]
    simp [hi] at h ⊢
    omega
  · intro j hj
    have hne : j ≠ i := by omega
    obtain ⟨h1, h2, h3, h4, h5⟩ := A7 j hj
    refine ⟨?_, ?_, ?_, ?_, ?_⟩
    · simp [addsP, mapSum_middle, hne, Ne.symm hne] at h1 ⊢
      omega
    · simp [runsP, mapSum_middle, hne, Ne.symm hne] at h2 ⊢
      omega
    · simp [execsP, mapSum_middle, hne, Ne.symm hne] at h3 ⊢
      omega
    · have h4' : evC tr (SEv.enq j) = 0 := h4
      rw [evC_snoc, if_neg (show ¬(SEv.fin i true = SEv.enq j) from by simp)]
      omega
    · have h5' : evC tr (SEv.pass j) = 0 := h5
      rw [evC_snoc, if_neg (show ¬(SEv.fin i true = SEv.pass j) from by simp)]
      omega
  · intro j hj1
    rw [evC_snoc, if_neg (show ¬(SEv.fin i true = SEv.enq j) from by simp)] at hj1
    have hj2 : 1 ≤ evC tr (SEv.enq j) := by omega
    exact A8a j hj2
  · intro j hj1
    rw [evC_snoc, if_neg (show ¬(SEv.fin i true = SEv.pass j) from by simp)] at hj1
    have hj2 : 1 ≤ evC tr (SEv.pass j) := by omega
    exact A8b j hj2
  · intro j hj1
    by_cases hj : j = i
    · subst hj; exact hf
    · rw [evC_snoc, if_neg (show ¬(SEv.fin i true = SEv.fin j true) from by
        simp
        exact fun h => hj h.symm)] at hj1
      have hj2 : 1 ≤ evC tr (SEv.fin j true) := by omega
      exact A8c j hj2
  · intro j hj1
    rw [evC_snoc, if_neg (show ¬(SEv.fin i true = SEv.fin j false) from by simp)] at hj1
    have hj2 : 1 ≤ evC tr (SEv.fin j false) := by omega
    exact A8d j hj2

/-- The invariant is preserved when a compile fails: the worker only sets
`info[i].failed` and never calls `mark_compiled`. -/
theorem sinv_fin_fail (G : List SNode) (fails : Nat → Bool)
    (l r : List SCall) (i : Nat) (cnt : Nat → Nat) (tr : List SEv)
    (hf : fails i = true)
    (hinv : SInv G fails ⟨l ++ SCall.exec i :: r, cnt, tr⟩) :
    SInv G fails ⟨l ++ r, cnt, tr ++ [SEv.fin i false]⟩ := by
  obtain ⟨A1, A2, A3, A4, A5, A6, A7, A8a, A8b, A8c, A8d⟩ := hinv
  refine ⟨?_, ?_, ?_, ?_, ?_, ?_, ?_, ?_, ?_, ?_, ?_⟩
  · intro j
    have h := A1 j
    simp [marksP, mapSum_middle, mapSum_append, evC_snoc] at h ⊢
    omega
  · intro j
    have h := A2 j
    simp [addsP, mapSum_middle, mapSum_append, evC_snoc] at h ⊢
    omega
  · intro j
    have h := A3 j
    simp [runsP, mapSum_middle, mapSum_append, evC_snoc] at h ⊢
    omega
  · intro j
    have h := A4 j
    by_cases hj : j = i
    · subst hj
      simp [execsP, mapSum_middle, mapSum_append, evC_snoc] at h ⊢
      omega
    · simp [execsP, mapSum_middle, mapSum_append, evC_snoc, hj, Ne.symm hj] at h ⊢
      omega
  · intro j cs hcs
    refine A5 j cs ?_
    rcases List.mem_append.mp hcs with h | h
    · exact List.mem_append.mpr (Or.inl h)
    · exact List.mem_append.mpr (Or.inr (List.mem_cons_of_mem _ h))
  · intro c
    have h := A6 c
    have hother := sumRHS_snoc_other G tr (SEv.fin i false)
      (fun j => ⟨by simp, by simp⟩) c
    simp only [remAll] at h ⊢
    rw [mapSum_middle] at h
    rw [mapSum_append]
    rw [hother]
    simpa using h
  · intro j hj
    obtain ⟨h1, h2, h3, h4, h5⟩ := A7 j hj
    refine ⟨?_, ?_, ?_, ?_, ?_⟩
    · simp [addsP, mapSum_middle, mapSum_append] at h1 ⊢
      omega
    · simp [runsP, mapSum_middle, mapSum_append] at h2 ⊢
      omega
    · simp [execsP, mapSum_middle, mapSum_append] at h3 ⊢
      omega
    · have h4' : evC tr (SEv.enq j) = 0 := h4
      rw [evC_snoc, if_neg (show ¬(SEv.fin i false = SEv.enq j) from by simp)]
      omega
    · have h5' : evC tr (SEv.pass j) = 0 := h5
      rw [evC_snoc, if_neg (show ¬(SEv.fin i false = SEv.pass j) from by simp)]
      omega
  · intro j hj1
    rw [evC_snoc, if_neg (show ¬(SEv.fin i false = SEv.enq j) from by simp)] at hj1
    have hj2 : 1 ≤ evC tr (SEv.enq j) := by omega
    exact A8a j hj2
  · intro j hj1
    rw [evC_snoc, if_neg (show ¬(SEv.fin i false = SEv.pass j) from by simp)] at hj1
    have hj2 : 1 ≤ evC tr (SEv.pass j) := by omega
    exact A8b j hj2
  · intro j hj1
    rw [evC_snoc, if_neg (show ¬(SEv.fin i false = SEv.fin j true) from by simp)] at hj1
    have hj2 : 1 ≤ evC tr (SEv.fin j true) := by omega
    exact A8c j hj2
  · intro j hj1
    by_cases hj : j = i
    · subst hj; exact hf
    · rw [evC_snoc, if_neg (show ¬(SEv.fin i false = SEv.fin j false) from by
        simp
        exact fun h => hj h.symm)] at hj1
      have hj2 : 1 ≤ evC tr (SEv.fin j false) := by omega
      exact A8d j hj2

/-- The invariant is preserved when a `mark_compiled` loop finishes. -/
theorem sinv_mark_done (G : List SNode) (fails : Nat → Bool)
    (l r : List SCall) (i : Nat) (cnt : Nat → Nat) (tr : List SEv)
    (hinv : SInv G fails ⟨l ++ SCall.mark i [] :: r, cnt, tr⟩) :
    SInv G fails ⟨l ++ r, cnt, tr ++ [SEv.mdone i]⟩ := by
  obtain ⟨A1, A2, A3, A4, A5, A6, A7, A8a, A8b, A8c, A8d⟩ := hinv
  refine ⟨?_, ?_, ?_, ?_, ?_, ?_, ?_, ?_, ?_, ?_, ?_⟩
  · intro j
    have h := A1 j
    by_cases hj : j = i
    · subst hj
      simp [marksP, mapSum_middle, mapSum_append, evC_snoc] at h ⊢
      omega
    · simp [marksP, mapSum_middle, mapSum_append, evC_snoc, hj, Ne.symm hj] at h ⊢
      omega
  · intro j
    have h := A2 j
    simp [addsP, mapSum_middle, mapSum_append, evC_snoc] at h ⊢
    omega
  · intro j
    have h := A3 j
    simp [runsP, mapSum_middle, mapSum_append, evC_snoc] at h ⊢
    omega
  · intro j
    have h := A4 j
    simp [execsP, mapSum_middle, mapSum_append, evC_snoc] at h ⊢
    omega
  · intro j cs hcs
    refine A5 j cs ?_
    rcases List.mem_append.mp hcs with h | h
    · exact List.mem_append.mpr (Or.inl h)
    · exact List.mem_append.mpr (Or.inr (List.mem_cons_of_mem _ h))
  · intro c
    have h := A6 c
    have hother := sumRHS_snoc_other G tr (SEv.mdone i)
      (fun j => ⟨by simp, by simp⟩) c
    simp only [remAll] at h ⊢
    rw [mapSum_middle] at h
    rw [mapSum_append]
    rw [hother]
    simpa using h
  · intro j hj
    obtain ⟨h1, h2, h3, h4, h5⟩ := A7 j hj
    refine ⟨?_, ?_, ?_, ?_, ?_⟩
    · simp [addsP, mapSum_middle, mapSum_append] at h1 ⊢
      omega
    · simp [runsP, mapSum_middle, mapSum_append] at h2 ⊢
      omega
    · simp [execsP, mapSum_middle, mapSum_append] at h3 ⊢
      omega
    · have h4' : evC tr (SEv.enq j) = 0 := h4
      rw [evC_snoc, if_neg (show ¬(SEv.mdone i = SEv.enq j) from by simp)]
      omega
    · have h5' : evC tr (SEv.pass j) = 0 := h5
      rw [evC_snoc, if_neg (show ¬(SEv.mdone i = SEv.pass j) from by simp)]
      omega
  · intro j hj1
    rw [evC_snoc, if_neg (show ¬(SEv.mdone i = SEv.enq j) from by simp)] at hj1
    have hj2 : 1 ≤ evC tr (SEv.enq j) := by omega
    exact A8a j hj2
  · intro j hj1
    rw [evC_snoc, if_neg (show ¬(SEv.mdone i = SEv.pass j) from by simp)] at hj1
    have hj2 : 1 ≤ evC tr (SEv.pass j) := by omega
    exact A8b j hj2
  · intro j hj1
    rw [evC_snoc, if_neg (show ¬(SEv.mdone i = SEv.fin j true) from by simp)] at hj1
    have hj2 : 1 ≤ evC tr (SEv.fin j true) := by omega
    exact A8c j hj2
  · intro j hj1
    rw [evC_snoc, if_neg (show ¬(SEv.mdone i = SEv.fin j false) from by simp)] at hj1
    have hj2 : 1 ≤ evC tr (SEv.fin j false) := by omega
    exact A8d j hj2

/-- The invariant is preserved when `mark_compiled`'s increment reaches a
child's parent count and spawns `add_to_compile_queue` for it. -/
theorem sinv_mark_hit (G : List SNode) (fails : Nat → Bool) (hwf : SWf G)
    (l r : List SCall) (i c : Nat) (cs : List Nat) (cnt : Nat → Nat)
    (tr : List SEv) (hc : cnt c + 1 = pcN G c)
    (hinv : SInv G fails ⟨l ++ SCall.mark i (c :: cs) :: r, cnt, tr⟩) :
    SInv G fails ⟨l ++ SCall.add c :: SCall.mark i cs :: r, bump cnt c, tr⟩ := by
  obtain ⟨A1, A2, A3, A4, A5, A6, A7, A8a, A8b, A8c, A8d⟩ := hinv
  have hmid := A5 i (c :: cs)
    (List.mem_append.mpr (Or.inr (List.mem_cons_self _ _)))
  have hi : i < G.length := hmid.2
  have hcmem : c ∈ chN G i := hmid.1.subset (List.mem_cons_self _ _)
  have hcn : c < G.length := (hwf.2.1 i hi c hcmem).1
  refine ⟨?_, ?_, ?_, ?_, ?_, ?_, ?_, ?_, ?_, ?_, ?_⟩
  · intro j
    have h := A1 j
    simp [marksP, mapSum_middle, mapSum_middle2] at h ⊢
    omega
  · intro j
    have h := A2 j
    by_cases hj : j = c
    · subst hj
      have hpre : hitC G cnt j = 0 := by
        simp only [hitC]
        rw [if_neg]
        rintro ⟨h1', h2'⟩
        omega
      have hpost : hitC G (bump cnt j) j = 1 := by
        have hb : bump cnt j j = cnt j + 1 := by simp [bump]
        simp only [hitC, hb]
        rw [if_pos (show 1 ≤ pcN G j ∧ pcN G j ≤ cnt j + 1 from
          ⟨by omega, by omega⟩)]
      simp [addsP, mapSum_middle, mapSum_middle2, hpre, hpost] at h ⊢
      omega
    · have hbj : hitC G (bump cnt c) j = hitC G cnt j := by
        have hb : bump cnt c j = cnt j := by simp [bump, hj]
        simp only [hitC, hb]
      simp [addsP, mapSum_middle, mapSum_middle2, hj, Ne.symm hj, hbj] at h ⊢
      omega
  · intro j
    have h := A3 j
    simp [runsP, mapSum_middle, mapSum_middle2] at h ⊢
    omega
  · intro j
    have h := A4 j
    simp [execsP, mapSum_middle, mapSum_middle2] at h ⊢
    omega
  · intro j csx hcs
    rcases List.mem_append.mp hcs with h | h
    · exact A5 j csx (List.mem_append.mpr (Or.inl h))
    · rcases List.mem_cons.mp h with h' | h'
      · exact absurd h' (by simp)
      · rcases List.mem_cons.mp h' with h'' | h''
        · obtain ⟨hji, hcsi⟩ := SCall.mark.inj h''
          subst hji
          subst hcsi
          exact ⟨List.sublist_of_cons_sublist hmid.1, hi⟩
        · exact A5 j csx
            (List.mem_append.mpr (Or.inr (List.mem_cons_of_mem _ h'')))
  · intro c'
    have h := A6 c'
    simp only [remAll] at h ⊢
    rw [mapSum_middle] at h
    rw [mapSum_middle2]
    by_cases hcc : c' = c
    · subst hcc
      simp [hi, bump, List.count_cons] at h ⊢
      omega
    · simp [hi, bump, List.count_cons, hcc, Ne.symm hcc] at h ⊢
      omega
  · intro j hj
    have hne_i : j ≠ i := by omega
    have hne_c : j ≠ c := by omega
    obtain ⟨h1, h2, h3, h4, h5⟩ := A7 j hj
    refine ⟨?_, ?_, ?_, ?_, ?_⟩
    · simp [addsP, mapSum_middle, mapSum_middle2, hne_c, Ne.symm hne_c] at h1 ⊢
      omega
    · simp [runsP, mapSum_middle, mapSum_middle2] at h2 ⊢
      omega
    · simp [execsP, mapSum_middle, mapSum_middle2] at h3 ⊢
      omega
    · exact h4
    · exact h5
  · intro j hj1
    exact A8a j hj1
  · intro j hj1
    exact A8b j hj1
  · intro j hj1
    exact A8c j hj1
  · intro j hj1
    exact A8d j hj1

/-- The invariant is preserved when `mark_compiled`'s increment stays below
a child's parent count. -/
theorem sinv_mark_miss (G : List SNode) (fails : Nat → Bool)
    (l r : List SCall) (i c : Nat) (cs : List Nat) (cnt : Nat → Nat)
    (tr : List SEv) (hc : cnt c + 1 ≠ pcN G c)
    (hinv : SInv G fails ⟨l ++ SCall.mark i (c :: cs) :: r, cnt, tr⟩) :
    SInv G fails ⟨l ++ SCall.mark i cs :: r, bump cnt c, tr⟩ := by
  obtain ⟨A1, A2, A3, A4, A5, A6, A7, A8a, A8b, A8c, A8d⟩ := hinv
  have hmid := A5 i (c :: cs)
    (List.mem_append.mpr (Or.inr (List.mem_cons_self _ _)))
  have hi : i < G.length := hmid.2
  have hhit : ∀ j, hitC G (bump cnt c) j = hitC G cnt j := by
    intro j
    by_cases hj : j = c
    · subst hj
      have hb : bump cnt j j = cnt j + 1 := by simp [bump]
      simp only [hitC, hb]
      by_cases h1 : 1 ≤ pcN G j ∧ pcN G j ≤ cnt j
      · rw [if_pos ⟨h1.1, by omega⟩, if_pos h1]
      · rw [if_neg (show ¬(1 ≤ pcN G j ∧ pcN G j ≤ cnt j + 1) from by
          rintro ⟨ha, hb'⟩
          exact h1 ⟨ha, by omega⟩), if_neg h1]
    · have hb : bump cnt c j = cnt j := by simp [bump, hj]
      simp only [hitC, hb]
  refine ⟨?_, ?_, ?_, ?_, ?_, ?_, ?_, ?_, ?_, ?_, ?_⟩
  · intro j
    have h := A1 j
    simp [marksP, mapSum_middle] at h ⊢
    omega
  · intro j
    have h := A2 j
    simp [addsP, mapSum_middle, hhit j] at h ⊢
    omega
  · intro j
    have h := A3 j
    simp [runsP, mapSum_middle] at h ⊢
    omega
  · intro j
    have h := A4 j
    simp [execsP, mapSum_middle] at h ⊢
    omega
  · intro j csx hcs
    rcases List.mem_append.mp hcs with h | h
    · exact A5 j csx (List.mem_append.mpr (Or.inl h))
    · rcases List.mem_cons.mp h with h' | h'
      · obtain ⟨hji, hcsi⟩ := SCall.mark.inj h'
        subst hji
        subst hcsi
        exact ⟨List.sublist_of_cons_sublist hmid.1, hi⟩
      · exact A5 j csx (List.mem_append.mpr (Or.inr (List.mem_cons_of_mem _ h')))
  · intro c'
    have h := A6 c'
    simp only [remAll] at h ⊢
    rw [mapSum_middle] at h ⊢
    by_cases hcc : c' = c
    · subst hcc
      simp [hi, bump, List.count_cons] at h ⊢
      omega
    · simp [hi, bump, List.count_cons, hcc, Ne.symm hcc] at h ⊢
      omega
  · intro j hj
    obtain ⟨h1, h2, h3, h4, h5⟩ := A7 j hj
    refine ⟨?_, ?_, ?_, ?_, ?_⟩
    · simp [addsP, mapSum_middle] at h1 ⊢
      omega
    · simp [runsP, mapSum_middle] at h2 ⊢
      omega
    · simp [execsP, mapSum_middle] at h3 ⊢
      omega
    · exact h4
    · exact h5
  · intro j hj1
    exact A8a j hj1
  · intro j hj1
    exact A8b j hj1
  · intro j hj1
    exact A8c j hj1
  · intro j hj1
    exact A8d j hj1

/-- Every scheduler step preserves the invariant. -/
theorem sinv_step (G : List SNode) (fails : Nat → Bool) (hwf : SWf G)
    {σ σ' : SState} (hstep : SStep G fails σ σ') (hinv : SInv G fails σ) :
    SInv G fails σ' := by
  cases hstep with
  | add_enq l r i cnt tr hn => exact sinv_add_enq G fails l r i cnt tr hn hinv
  | add_pass l r i cnt tr hn => exact sinv_add_pass G fails l r i cnt tr hn hinv
  | task_start l r i cnt tr => exact sinv_task_start G fails l r i cnt tr hinv
  | fin_ok l r i cnt tr hf => exact sinv_fin_ok G fails l r i cnt tr hf hinv
  | fin_fail l r i cnt tr hf => exact sinv_fin_fail G fails l r i cnt tr hf hinv
  | mark_hit l r i c cs cnt tr hc =>
    exact sinv_mark_hit G fails hwf l r i c cs cnt tr hc hinv
  | mark_miss l r i c cs cnt tr hc =>
    exact sinv_mark_miss G fails l r i c cs cnt tr hc hinv
  | mark_done l r i cnt tr => exact sinv_mark_done G fails l r i cnt tr hinv

/-- The invariant holds in every reachable state. -/
theorem sinv_reach (G : List SNode) (fails : Nat → Bool) (hwf : SWf G)
    {σ : SState} (hr : SReach G fails σ) : SInv G fails σ := by
  induction hr with
  | init => exact sinv_init G fails
  | step h hs ih => exact sinv_step G fails hwf hs ih

/-- A record is seeded as a root or spawned by its counter hitting the
threshold, never both. -/
theorem spawn_le_one (G : List SNode) (cnt : Nat → Nat) (i : Nat) :
    rootS G i + hitC G cnt i ≤ 1 := by
  simp only [rootS, hitC]
  split_ifs <;> omega

/-- Any record passes through or finishes successfully at most once. -/
theorem pf_le_one (G : List SNode) (fails : Nat → Bool) (σ : SState)
    (hinv : SInv G fails σ) (i : Nat) :
    evC σ.tr (SEv.pass i) + evC σ.tr (SEv.fin i true) ≤ 1 := by
  obtain ⟨A1, A2, A3, A4, A5, A6, A7, A8a, A8b, A8c, A8d⟩ := hinv
  have h2 := A2 i
  have h3 := A3 i
  have h4 := A4 i
  have hsp := spawn_le_one G σ.cnt i
  omega

/-- `compiled_parents` never exceeds the parent count. -/
theorem cnt_le_pc (G : List SNode) (fails : Nat → Bool) (σ : SState)
    (hwf : SWf G) (hinv : SInv G fails σ) (c : Nat) (hc : c < G.length) :
    σ.cnt c ≤ pcN G c := by
  have hpf := pf_le_one G fails σ hinv
  obtain ⟨A1, A2, A3, A4, A5, A6, A7, A8a, A8b, A8c, A8d⟩ := hinv
  have h6 := A6 c
  have hsum : (∑ i ∈ Finset.range G.length, (chN G i).count c *
      (evC σ.tr (SEv.pass i) + evC σ.tr (SEv.fin i true)))
      ≤ ∑ i ∈ Finset.range G.length, (chN G i).count c := by
    refine Finset.sum_le_sum (fun i _ => ?_)
    calc (chN G i).count c * (evC σ.tr (SEv.pass i) + evC σ.tr (SEv.fin i true))
        ≤ (chN G i).count c * 1 := Nat.mul_le_mul_left _ (hpf i)
      _ = (chN G i).count c := Nat.mul_one _
  have hdual := hwf.1 c hc
  omega

/-- Only a record with a nonempty child list can own children. -/
theorem chN_mem_bound (G : List SNode) (a c : Nat) (h : c ∈ chN G a) :
    a < G.length := by
  by_contra hn
  rw [chN, List.get?_len_le (by omega)] at h
  simp at h

/-- Once a record has been activated (enqueued or passed through), each of
its parents has passed through or finished successfully, exactly once. -/
theorem sched_parents_done (G : List SNode) (fails : Nat → Bool) (σ : SState)
    (hwf : SWf G) (hinv : SInv G fails σ) (c : Nat) (hc : c < G.length)
    (hact : 1 ≤ evC σ.tr (SEv.enq c) + evC σ.tr (SEv.pass c)) :
    ∀ p ∈ parN G c, evC σ.tr (SEv.pass p) + evC σ.tr (SEv.fin p true) = 1 := by
  intro p hp
  have hle := cnt_le_pc G fails σ hwf hinv c hc
  have hpf := pf_le_one G fails σ hinv
  obtain ⟨A1, A2, A3, A4, A5, A6, A7, A8a, A8b, A8c, A8d⟩ := hinv
  have hpcpos : 1 ≤ pcN G c := List.length_pos.mpr (List.ne_nil_of_mem hp)
  have h2 := A2 c
  have hroot : rootS G c = 0 := by
    simp only [rootS]
    rw [if_neg]
    rintro ⟨_, h0⟩
    omega
  rw [hroot] at h2
  have hhitle : hitC G σ.cnt c ≤ 1 := by
    simp only [hitC]
    split_ifs <;> omega
  have hhit1 : hitC G σ.cnt c = 1 := by omega
  have hcnt_ge : pcN G c ≤ σ.cnt c := by
    by_contra hlt
    have h0 : hitC G σ.cnt c = 0 := by
      simp only [hitC]
      rw [if_neg]
      rintro ⟨_, hle2⟩
      omega
    omega
  have h6 := A6 c
  have hdual := hwf.1 c hc
  have hpn := hwf.2.2 c hc p hp
  have hcount : 0 < (chN G p).count c := List.count_pos_iff_mem.mpr hpn.2
  by_contra hne
  have hpf_p : evC σ.tr (SEv.pass p) + evC σ.tr (SEv.fin p true) = 0 := by
    have := hpf p
    omega
  have hlt : (∑ i ∈ Finset.range G.length, (chN G i).count c *
      (evC σ.tr (SEv.pass i) + evC σ.tr (SEv.fin i true)))
      < ∑ i ∈ Finset.range G.length, (chN G i).count c := by
    refine Finset.sum_lt_sum (fun i _ => ?_) ⟨p, Finset.mem_range.mpr hpn.1, ?_⟩
    · calc (chN G i).count c * (evC σ.tr (SEv.pass i) + evC σ.tr (SEv.fin i true))
          ≤ (chN G i).count c * 1 := Nat.mul_le_mul_left _ (hpf i)
        _ = (chN G i).count c := Nat.mul_one _
    · rw [hpf_p, Nat.mul_zero]
      exact hcount
  omega

/-- A record that passed through or finished successfully was activated. -/
theorem sched_done_activated (G : List SNode) (fails : Nat → Bool) (σ : SState)
    (hinv : SInv G fails σ) (p : Nat)
    (h : 1 ≤ evC σ.tr (SEv.pass p) + evC σ.tr (SEv.fin p true)) :
    1 ≤ evC σ.tr (SEv.enq p) + evC σ.tr (SEv.pass p) := by
  obtain ⟨A1, A2, A3, A4, A5, A6, A7, A8a, A8b, A8c, A8d⟩ := hinv
  have h3 := A3 p
  have h4 := A4 p
  omega

/-- Strict descendant along child edges. -/
inductive SDesc (G : List SNode) (a : Nat) : Nat → Prop where
  | child {c : Nat} (h : c ∈ chN G a) : SDesc G a c
  | trans {b c : Nat} (hd : SDesc G a b) (h : c ∈ chN G b) : SDesc G a c

/-- If a descendant has been activated, the ancestor completed (passed
through or finished successfully). -/
theorem sched_activated_ancestor (G : List SNode) (fails : Nat → Bool)
    (σ : SState) (hwf : SWf G) (hinv : SInv G fails σ) (a c : Nat)
    (hdesc : SDesc G a c) :
    1 ≤ evC σ.tr (SEv.enq c) + evC σ.tr (SEv.pass c) →
    1 ≤ evC σ.tr (SEv.pass a) + evC σ.tr (SEv.fin a true) := by
  induction hdesc with
  | child h =>
    intro hact
    have ha := chN_mem_bound G _ _ h
    have hcc := hwf.2.1 _ ha _ h
    have := sched_parents_done G fails σ hwf hinv _ hcc.1 hact a hcc.2
    omega
  | trans hd h ih =>
    intro hact
    have hb := chN_mem_bound G _ _ h
    have hcc := hwf.2.1 _ hb _ h
    have hbdone := sched_parents_done G fails σ hwf hinv _ hcc.1 hact _ hcc.2
    exact ih (sched_done_activated G fails σ hinv _ (by omega))

/-- A record whose compile failed neither passed through nor finished
successfully. -/
theorem sched_failed_not_done (G : List SNode) (fails : Nat → Bool)
    (σ : SState) (hinv : SInv G fails σ) (a : Nat)
    (hfail : 1 ≤ evC σ.tr (SEv.fin a false)) :
    ¬ (1 ≤ evC σ.tr (SEv.pass a) + evC σ.tr (SEv.fin a true)) := by
  obtain ⟨A1, A2, A3, A4, A5, A6, A7, A8a, A8b, A8c, A8d⟩ := hinv
  intro hdone
  have hfl : fails a = true := A8d a hfail
  by_cases hp : 1 ≤ evC σ.tr (SEv.pass a)
  · have hneed := A8b a hp
    have h3 := A3 a
    have h4 := A4 a
    have henq : 1 ≤ evC σ.tr (SEv.enq a) := by omega
    have hneed2 := A8a a henq
    rw [hneed2] at hneed
    exact absurd hneed (by simp)
  · have hfo : 1 ≤ evC σ.tr (SEv.fin a true) := by omega
    have h1 := A8c a hfo
    rw [hfl] at h1
    exact absurd h1 (by simp)

/-- C1: in every reachable scheduler state (over any worker interleaving,
hence any worker count), once record `c`'s compile step has started, every
parent of `c` has either fallen through as a pass-through node
(`need_compile` false) or completed its own compile step successfully; and
no direct or transitive child of a record whose compile step failed ever
starts.  Since every prefix of a run is itself reachable, this is exactly
the claimed ordering guarantee. -/
theorem c1_scheduler_parent_ordering (G : List SNode) (fails : Nat → Bool)
    (σ : SState) (hwf : SWf G) (hr : SReach G fails σ) (c : Nat)
    (hstart : 1 ≤ evC σ.tr (SEv.start c)) :
    (∀ p ∈ parN G c,
        (evC σ.tr (SEv.pass p) = 1 ∧ needN G p = false)
      ∨ (evC σ.tr (SEv.fin p true) = 1 ∧ fails p = false))
    ∧ (∀ a, 1 ≤ evC σ.tr (SEv.fin a false) → ¬ SDesc G a c) := by
  have hinv := sinv_reach G fails hwf hr
  have hact : 1 ≤ evC σ.tr (SEv.enq c) + evC σ.tr (SEv.pass c) := by
    obtain ⟨A1, A2, A3, A4, hrest⟩ := hinv
    have h3 := A3 c
    omega
  have hc : c < G.length := by
    by_contra hn
    obtain ⟨A1, A2, A3, A4, A5, A6, A7, hrest⟩ := hinv
    have h7 := (A7 c (by omega)).2.2.2.1
    have h3 := A3 c
    omega
  constructor
  · intro p hp
    have hdone := sched_parents_done G fails σ hwf hinv c hc hact p hp
    obtain ⟨A1, A2, A3, A4, A5, A6, A7, A8a, A8b, A8c, A8d⟩ := hinv
    by_cases hpp : 1 ≤ evC σ.tr (SEv.pass p)
    · exact Or.inl ⟨by omega, A8b p hpp⟩
    · have hfo : evC σ.tr (SEv.fin p true) = 1 := by omega
      exact Or.inr ⟨hfo, A8c p (by omega)⟩
  · intro a hfa hdesc
    have hcompleted := sched_activated_ancestor G fails σ hwf hinv a c hdesc hact
    exact sched_failed_not_done G fails σ hinv a hfa hcompleted

/-- C9: in every reachable scheduler state each record has been enqueued at
most once; a record with parents is enqueued only once its atomic
`compiled_parents` counter equals its parent count; at quiescence
(`pool.join`, pending empty) every needed root has been enqueued exactly
once; and each record's compile step starts at most once. -/
theorem c9_enqueue_at_most_once (G : List SNode) (fails : Nat → Bool)
    (σ : SState) (hwf : SWf G) (hr : SReach G fails σ) :
    (∀ i, evC σ.tr (SEv.enq i) ≤ 1)
    ∧ (∀ i, 1 ≤ pcN G i → 1 ≤ evC σ.tr (SEv.enq i) → σ.cnt i = pcN G i)
    ∧ (σ.pending = [] → ∀ i, i < G.length → pcN G i = 0 → needN G i = true →
        evC σ.tr (SEv.enq i) = 1)
    ∧ (∀ i, evC σ.tr (SEv.start i) ≤ 1) := by
  have hinv := sinv_reach G fails hwf hr
  obtain ⟨A1, A2, A3, A4, A5, A6, A7, A8a, A8b, A8c, A8d⟩ := hinv
  have henq1 : ∀ i, evC σ.tr (SEv.enq i) ≤ 1 := by
    intro i
    have h2 := A2 i
    have hsp := spawn_le_one G σ.cnt i
    omega
  refine ⟨henq1, ?_, ?_, ?_⟩
  · intro i hpc henq
    have hi : i < G.length := by
      by_contra hn
      have := (A7 i (by omega)).2.2.2.1
      omega
    have hle := cnt_le_pc G fails σ hwf
      ⟨A1, A2, A3, A4, A5, A6, A7, A8a, A8b, A8c, A8d⟩ i hi
    have h2 := A2 i
    have hroot : rootS G i = 0 := by
      simp only [rootS]
      rw [if_neg]
      rintro ⟨_, h0⟩
      omega
    have hhitle : hitC G σ.cnt i ≤ 1 := by
      simp only [hitC]
      split_ifs <;> omega
    have hhit : hitC G σ.cnt i = 1 := by
      rw [hroot] at h2
      omega
    have hge : pcN G i ≤ σ.cnt i := by
      by_contra hlt
      have h0 : hitC G σ.cnt i = 0 := by
        simp only [hitC]
        rw [if_neg]
        rintro ⟨_, h'⟩
        omega
      omega
    omega
  · intro hpend i hi hpc hneed
    have h2 := A2 i
    have hadds : addsP σ.pending i = 0 := by
      rw [hpend]
      rfl
    have hroot : rootS G i = 1 := by
      simp only [rootS]
      rw [if_pos ⟨hi, hpc⟩]
    have hhit : hitC G σ.cnt i = 0 := by
      simp only [hitC]
      rw [if_neg]
      rintro ⟨h1, _⟩
      omega
    have hpass : evC σ.tr (SEv.pass i) = 0 := by
      by_contra hp
      have hx := A8b i (by omega)
      rw [hneed] at hx
      exact absurd hx (by simp)
    have := henq1 i
    omega
  · intro i
    have h3 := A3 i
    have := henq1 i
    omega

/-- A two-record build: a needed root `0` with single child `1`. -/
def demoG : List SNode :=
  [{ need := true, parents := [], children := [1] },
   { need := true, parents := [0], children := [] }]

/-- Both compiles succeed. -/
def demoFails : Nat → Bool := fun _ => false

/-- The quiescent state of the complete run of `demoG`: root compiled, its
counter increment released the child, the child compiled, both mark loops
drained. -/
def demoFin : SState :=
  ⟨[], bump (fun _ => 0) 1,
    [SEv.enq 0, SEv.start 0, SEv.fin 0 true, SEv.enq 1, SEv.start 1,
      SEv.fin 1 true, SEv.mdone 1, SEv.mdone 0]⟩

/-- The complete run reaching `demoFin`. -/
theorem demoFin_reach : SReach demoG demoFails demoFin :=
  .step (.step (.step (.step (.step (.step (.step (.step (.step .init
    (SStep.add_enq [] [] 0 (fun _ => 0) [] rfl))
    (SStep.task_start [] [] 0 (fun _ => 0) [SEv.enq 0]))
    (SStep.fin_ok [] [] 0 (fun _ => 0) [SEv.enq 0, SEv.start 0] rfl))
    (SStep.mark_hit [] [] 0 1 [] (fun _ => 0)
      [SEv.enq 0, SEv.start 0, SEv.fin 0 true] rfl))
    (SStep.add_enq [] [SCall.mark 0 []] 1 (bump (fun _ => 0) 1)
      [SEv.enq 0, SEv.start 0, SEv.fin 0 true] rfl))
    (SStep.task_start [] [SCall.mark 0 []] 1 (bump (fun _ => 0) 1)
      [SEv.enq 0, SEv.start 0, SEv.fin 0 true, SEv.enq 1]))
    (SStep.fin_ok [] [SCall.mark 0 []] 1 (bump (fun _ => 0) 1)
      [SEv.enq 0, SEv.start 0, SEv.fin 0 true, SEv.enq 1, SEv.start 1] rfl))
    (SStep.mark_done [] [SCall.mark 0 []] 1 (bump (fun _ => 0) 1)
      [SEv.enq 0, SEv.start 0, SEv.fin 0 true, SEv.enq 1, SEv.start 1,
        SEv.fin 1 true]))
    (SStep.mark_done [] [] 0 (bump (fun _ => 0) 1)
      [SEv.enq 0, SEv.start 0, SEv.fin 0 true, SEv.enq 1, SEv.start 1,
        SEv.fin 1 true, SEv.mdone 1])

/-- Witness for C1 at the two-record run: record 1 started, and its only
parent 0 finished successfully beforehand; no failure occurred, so the
no-descendant clause is vacuous. -/
theorem c1_scheduler_parent_ordering_witness :
    SWf demoG ∧ 1 ≤ evC demoFin.tr (SEv.start 1)
      ∧ ((∀ p ∈ parN demoG 1,
            (evC demoFin.tr (SEv.pass p) = 1 ∧ needN demoG p = false)
          ∨ (evC demoFin.tr (SEv.fin p true) = 1 ∧ demoFails p = false))
        ∧ (∀ a, 1 ≤ evC demoFin.tr (SEv.fin a false) → ¬ SDesc demoG a 1)) :=
  ⟨by decide, by decide,
    c1_scheduler_parent_ordering demoG demoFails demoFin (by decide)
      demoFin_reach 1 (by decide)⟩

/-- Witness for C9 at the two-record run: both records enqueued once, the
child only at its counter's threshold, the root exactly once at
quiescence, and no compile started twice. -/
theorem c9_enqueue_at_most_once_witness :
    SWf demoG ∧ demoFin.pending = []
      ∧ ((∀ i, evC demoFin.tr (SEv.enq i) ≤ 1)
        ∧ (∀ i, 1 ≤ pcN demoG i → 1 ≤ evC demoFin.tr (SEv.enq i) →
            demoFin.cnt i = pcN demoG i)
        ∧ (demoFin.pending = [] → ∀ i, i < demoG.length → pcN demoG i = 0 →
            needN demoG i = true → evC demoFin.tr (SEv.enq i) = 1)
        ∧ (∀ i, evC demoFin.tr (SEv.start i) ≤ 1)) :=
  ⟨by decide, rfl,
    c9_enqueue_at_most_once demoG demoFails demoFin (by decide) demoFin_reach⟩
